import Mathlib

/-!
Verification of the capacity-planner merge core.

The development shallowly embeds the reconcile loop of `saveStateHandler`
(src/api/server.js) and the shared pure helpers `deepMergeObject`,
`migrateTracks`, `migrateTrackCapacity` (src/unnamed/part_007, the file
`shared/computations.js`).  JavaScript JSON values are modelled by the
inductive type `JsVal`; JS objects are association lists preserving key
insertion order, which makes comparison by `JSON.stringify` coincide with
structural equality of the model (JSON.stringify serialises object keys in
insertion order).  Transport, persistence and broadcast code around the
reconcile loop is outside the embedding; the loop itself is translated
line by line.
-/

/-- A JavaScript JSON value.  Objects are ordered association lists, matching
JS object key insertion order. -/
inductive JsVal where
  | null : JsVal
  | bool : Bool → JsVal
  | num  : Int → JsVal
  | str  : String → JsVal
  | arr  : List JsVal → JsVal
  | obj  : List (String × JsVal) → JsVal

mutual

/-- Structural equality of JSON values; models comparison of two values by
`JSON.stringify` (equal strings iff structurally equal values, since object
key order is part of the model). -/
def JsVal.beq : JsVal → JsVal → Bool
  | .null, .null => true
  | .bool a, .bool b => a == b
  | .num a, .num b => a == b
  | .str a, .str b => a == b
  | .arr xs, .arr ys => JsVal.beqList xs ys
  | .obj xs, .obj ys => JsVal.beqObj xs ys
  | _, _ => false

/-- Elementwise `JsVal.beq` on arrays. -/
def JsVal.beqList : List JsVal → List JsVal → Bool
  | [], [] => true
  | x :: xs, y :: ys => JsVal.beq x y && JsVal.beqList xs ys
  | _, _ => false

/-- Entrywise `JsVal.beq` on object entry lists. -/
def JsVal.beqObj : List (String × JsVal) → List (String × JsVal) → Bool
  | [], [] => true
  | (k, v) :: xs, (k2, v2) :: ys => k == k2 && JsVal.beq v v2 && JsVal.beqObj xs ys
  | _, _ => false

end

/-- Size-based induction principle for `JsVal` exposing the nested lists. -/
theorem JsVal.inductionOn
    (motive : JsVal → Prop)
    (hnull : motive .null)
    (hbool : ∀ b, motive (.bool b))
    (hnum : ∀ n, motive (.num n))
    (hstr : ∀ s, motive (.str s))
    (harr : ∀ xs, (∀ x ∈ xs, motive x) → motive (.arr xs))
    (hobj : ∀ fs, (∀ p ∈ fs, motive p.2) → motive (.obj fs)) :
    ∀ v, motive v := by
  have key : ∀ n : ℕ, ∀ v : JsVal, sizeOf v ≤ n → motive v := by
    intro n
    induction n with
    | zero =>
      intro v h
      cases v <;> simp at h
    | succ n ih =>
      intro v h
      cases v with
      | null => exact hnull
      | bool b => exact hbool b
      | num m => exact hnum m
      | str s => exact hstr s
      | arr xs =>
        refine harr xs (fun x hx => ih x ?_)
        have hlt : sizeOf x < sizeOf xs := List.sizeOf_lt_of_mem hx
        simp only [JsVal.arr.sizeOf_spec] at h
        omega
      | obj fs =>
        refine hobj fs (fun p hp => ih p.2 ?_)
        have hlt : sizeOf p < sizeOf fs := List.sizeOf_lt_of_mem hp
        have hp2 : sizeOf p.2 ≤ sizeOf p := by
          obtain ⟨k, v⟩ := p
          simp only [Prod.mk.sizeOf_spec]
          omega
        simp only [JsVal.obj.sizeOf_spec] at h
        omega
  exact fun v => key (sizeOf v) v (Nat.le_refl _)

/-- `JsVal.beqList` decides list equality, given that `beq` does so elementwise. -/
theorem JsVal.beqList_eq_true_iff :
    ∀ (xs ys : List JsVal), (∀ x ∈ xs, ∀ b, (JsVal.beq x b = true) ↔ x = b) →
      ((JsVal.beqList xs ys = true) ↔ xs = ys) := by
  intro xs
  induction xs with
  | nil => intro ys _; cases ys <;> simp [JsVal.beqList]
  | cons x xs ihl =>
    intro ys h
    cases ys with
    | nil => simp [JsVal.beqList]
    | cons y ys =>
      have hx := h x (by simp) y
      have hrest := ihl ys (fun z hz b => h z (by simp [hz]) b)
      simp only [JsVal.beqList, Bool.and_eq_true, List.cons.injEq, hx, hrest]

/-- `JsVal.beqObj` decides entry-list equality, given elementwise decisiveness. -/
theorem JsVal.beqObj_eq_true_iff :
    ∀ (fs gs : List (String × JsVal)),
      (∀ p ∈ fs, ∀ b, (JsVal.beq p.2 b = true) ↔ p.2 = b) →
      ((JsVal.beqObj fs gs = true) ↔ fs = gs) := by
  intro fs
  induction fs with
  | nil => intro gs _; cases gs <;> simp [JsVal.beqObj]
  | cons p fs ihl =>
    intro gs h
    cases gs with
    | nil => obtain ⟨k, v⟩ := p; simp [JsVal.beqObj]
    | cons q gs =>
      obtain ⟨k, v⟩ := p
      obtain ⟨k2, v2⟩ := q
      have hv := h (k, v) (by simp) v2
      have hrest := ihl gs (fun z hz b => h z (by simp [hz]) b)
      simp only [JsVal.beqObj, Bool.and_eq_true, List.cons.injEq, Prod.mk.injEq,
        beq_iff_eq, hrest]
      constructor
      · rintro ⟨⟨hk, hvv⟩, hr⟩
        exact ⟨⟨hk, hv.mp hvv⟩, hr⟩
      · rintro ⟨⟨hk, hvv⟩, hr⟩
        exact ⟨⟨hk, hv.mpr hvv⟩, hr⟩

/-- `JsVal.beq` decides structural equality: the stringify-comparison used by
the source coincides with structural equality of the model. -/
theorem JsVal.beq_eq_true_iff : ∀ a b : JsVal, (JsVal.beq a b = true) ↔ a = b := by
  intro a
  induction a using JsVal.inductionOn with
  | hnull => intro b; cases b <;> simp [JsVal.beq]
  | hbool x => intro b; cases b <;> simp [JsVal.beq]
  | hnum x => intro b; cases b <;> simp [JsVal.beq]
  | hstr x => intro b; cases b <;> simp [JsVal.beq]
  | harr xs ih =>
    intro b
    cases b with
    | arr ys =>
      simp only [JsVal.beq, JsVal.arr.injEq]
      exact JsVal.beqList_eq_true_iff xs ys ih
    | null => simp [JsVal.beq]
    | bool y => simp [JsVal.beq]
    | num y => simp [JsVal.beq]
    | str y => simp [JsVal.beq]
    | obj gs => simp [JsVal.beq]
  | hobj fs ih =>
    intro b
    cases b with
    | obj gs =>
      simp only [JsVal.beq, JsVal.obj.injEq]
      exact JsVal.beqObj_eq_true_iff fs gs ih
    | null => simp [JsVal.beq]
    | bool y => simp [JsVal.beq]
    | num y => simp [JsVal.beq]
    | str y => simp [JsVal.beq]
    | arr ys => simp [JsVal.beq]

instance : DecidableEq JsVal :=
  fun a b => decidable_of_iff _ (JsVal.beq_eq_true_iff a b)

/-- JS truthiness of a JSON value (`if (v)`). -/
def JsVal.truthy : JsVal → Bool
  | .null => false
  | .bool b => b
  | .num n => n != 0
  | .str s => s != ""
  | .arr _ => true
  | .obj _ => true

/-- `v` is a plain keyed object: `v && typeof v === "object" && !Array.isArray(v)`
(null is excluded by truthiness, arrays by the explicit check). -/
def JsVal.isPlainObject : JsVal → Bool
  | .obj _ => true
  | _ => false

/-- Property lookup `o[k]` on a JS object entry list (`none` = `undefined`). -/
def getKey {α : Type} : List (String × α) → String → Option α
  | [], _ => none
  | (k2, v) :: rest, k => if k2 = k then some v else getKey rest k

/-- Membership test `k in o` on a JS object entry list. -/
def hasKey {α : Type} (fs : List (String × α)) (k : String) : Bool :=
  (getKey fs k).isSome

/-- Property assignment `o[k] = v`: updates the entry in place when the key is
present (JS keeps the original insertion position), appends otherwise. -/
def setKey {α : Type} : List (String × α) → String → α → List (String × α)
  | [], k, v => [(k, v)]
  | (k2, v2) :: rest, k, v =>
      if k2 = k then (k2, v) :: rest else (k2, v2) :: setKey rest k v

/-- Property removal `delete o[k]`. -/
def delKey {α : Type} : List (String × α) → String → List (String × α)
  | [], _ => []
  | (k2, v2) :: rest, k =>
      if k2 = k then delKey rest k else (k2, v2) :: delKey rest k

theorem getKey_setKey_self {α : Type} (fs : List (String × α)) (k : String) (v : α) :
    getKey (setKey fs k v) k = some v := by
  induction fs with
  | nil => simp [setKey, getKey]
  | cons p rest ih =>
    obtain ⟨k2, v2⟩ := p
    by_cases h : k2 = k <;> simp [setKey, getKey, h, ih]

theorem getKey_setKey_ne {α : Type} (fs : List (String × α)) (k k2 : String) (v : α)
    (h : k2 ≠ k) : getKey (setKey fs k v) k2 = getKey fs k2 := by
  have hk : ¬(k = k2) := fun hh => h hh.symm
  induction fs with
  | nil => simp [setKey, getKey, hk]
  | cons p rest ih =>
    obtain ⟨k3, v3⟩ := p
    by_cases h3 : k3 = k
    · subst h3
      simp [setKey, getKey, hk]
    · simp [setKey, getKey, h3, ih]

theorem setKey_eq_of_getKey_eq {α : Type} (fs : List (String × α)) (k : String) (v : α)
    (h : getKey fs k = some v) : setKey fs k v = fs := by
  induction fs with
  | nil => simp [getKey] at h
  | cons p rest ih =>
    obtain ⟨k2, v2⟩ := p
    by_cases h2 : k2 = k
    · subst h2
      simp [getKey] at h
      simp [setKey, h]
    · simp [getKey, h2] at h
      simp [setKey, h2, ih h]

theorem hasKey_setKey {α : Type} (fs : List (String × α)) (k k2 : String) (v : α)
    (h : hasKey fs k2 = true) : hasKey (setKey fs k v) k2 = true := by
  by_cases hk : k2 = k
  · subst hk
    simp [hasKey, getKey_setKey_self]
  · simpa [hasKey, getKey_setKey_ne fs k k2 v hk] using h

theorem hasKey_iff_mem_keys {α : Type} (fs : List (String × α)) (k : String) :
    hasKey fs k = true ↔ k ∈ fs.map Prod.fst := by
  induction fs with
  | nil => simp [hasKey, getKey]
  | cons p rest ih =>
    obtain ⟨k2, v2⟩ := p
    by_cases h : k2 = k
    · subst h
      simp [hasKey, getKey]
    · have hk : ¬(k = k2) := fun hh => h hh.symm
      simp only [hasKey, getKey, h, if_false, List.map_cons, List.mem_cons] at ih ⊢
      exact ⟨fun hh => Or.inr (ih.mp hh),
        fun hh => hh.elim (fun he => absurd he hk) ih.mpr⟩

theorem getKey_eq_none_of_not_hasKey {α : Type} (fs : List (String × α)) (k : String)
    (h : hasKey fs k = false) : getKey fs k = none := by
  cases hg : getKey fs k with
  | none => rfl
  | some v => rw [hasKey, hg] at h; simp at h

/-- The merge-safe field list of the save endpoint (`STATE_FIELDS` in
src/api/server.js). -/
def STATE_FIELDS : List String :=
  ["capacity", "tracks", "trackCapacity", "splits", "timelineConfig", "milestones",
   "timelineOverrides", "sizeMap", "trackSubLaneCounts", "timelineLaneAssignments",
   "trackBlockOrder", "buffer"]

/-- Accumulated state of the reconcile loop in `saveStateHandler`: the document
being built (started as a spread of the loaded document), the per-field
timestamp map (mutated in place by the source), and the accepted / rejected
report lists. -/
structure ReconcileState where
  doc : List (String × JsVal)
  ts : List (String × Nat)
  accepted : List String
  rejected : List String
deriving DecidableEq

/-- The sub-keys the client changed or added: keys `k` of `clientValue` whose
stringified value differs from `(existing[field] || {})[k]`
(src/api/server.js, the changedSubKeys loop). -/
def changedSubKeysOf (cfs sfs : List (String × JsVal)) : List String :=
  (cfs.map Prod.fst).filter (fun k => decide (getKey cfs k ≠ getKey sfs k))

/-- The sub-keys the client deleted: keys of the server value absent from the
client value (src/api/server.js, the deletedKeys loop). -/
def deletedKeysOf (cfs sfs : List (String × JsVal)) : List String :=
  (sfs.map Prod.fst).filter (fun k => !hasKey cfs k)

/-- The audit annotation appended to an accepted merged field
(`field + "(merged:" + desc.join(";") + ")"` in the source). -/
def mergeDesc (cfs sfs : List (String × JsVal)) : String :=
  String.intercalate ";"
    ((if (changedSubKeysOf cfs sfs).isEmpty then []
      else ["changed:" ++ String.intercalate "," (changedSubKeysOf cfs sfs)]) ++
     (if (deletedKeysOf cfs sfs).isEmpty then []
      else ["deleted:" ++ String.intercalate "," (deletedKeysOf cfs sfs)]))

/-- One iteration of the `for (const field of STATE_FIELDS)` loop of
`saveStateHandler` (src/api/server.js lines 515-576), translated branch by
branch.  `existing` is the loaded document, `body` the request payload
restricted to its field map, `clientLoadedAt` the already-defaulted load
marker, `now` the request timestamp.  The sub-key merge branch requires both
sides to be truthy non-array objects; in the model that is exactly the `.obj`
constructor (`null` is falsy, arrays and primitives are other constructors).
The try/catch around the merge body is not modelled: every operation inside it
is total here (stringify cannot throw on JSON trees). -/
def reconcileField (existing : List (String × JsVal)) (body : String → Option JsVal)
    (clientLoadedAt now : Nat) (st : ReconcileState) (field : String) : ReconcileState :=
  match body field with
  | none => st
  | some clientValue =>
    let fieldLastModified := (getKey st.ts field).getD 0
    if clientLoadedAt = 0 ∨ fieldLastModified ≤ clientLoadedAt then
      -- no conflict: accept, but bump the timestamp only when the value changed
      let valueChanged := decide (getKey existing field ≠ some clientValue)
      let st := { st with doc := setKey st.doc field clientValue }
      if valueChanged then
        { st with ts := setKey st.ts field now, accepted := st.accepted ++ [field] }
      else st
    else
      match clientValue, getKey existing field with
      | .obj cfs, some (.obj sfs) =>
        -- conflict on an object field: sub-key merge, starting from the client value
        let merged := cfs
        let changedSubKeys := changedSubKeysOf cfs sfs
        let deletedKeys := deletedKeysOf cfs sfs
        if changedSubKeys ≠ [] ∨ deletedKeys ≠ [] then
          { st with
              doc := setKey st.doc field (.obj merged),
              ts := setKey st.ts field now,
              accepted := st.accepted ++
                [field ++ "(merged:" ++ mergeDesc cfs sfs ++ ")"] }
        else st
      | _, _ =>
        -- conflict on a non-object field: keep the server version
        { st with rejected := st.rejected ++ [field] }

/-- The reconcile loop over an arbitrary field list. -/
def reconcileOver (fields : List String) (existing : List (String × JsVal))
    (body : String → Option JsVal) (clientLoadedAt now : Nat)
    (st : ReconcileState) : ReconcileState :=
  fields.foldl (reconcileField existing body clientLoadedAt now) st

/-- The merge core of `saveStateHandler`: state starts as a spread of the
loaded document, the timestamp map as the loaded `_fieldTs`, and the loop runs
over `STATE_FIELDS`.  (`updatedAt`, persistence, response shaping and the
WebSocket broadcast are outside the embedding.) -/
def reconcile (existing : List (String × JsVal)) (existingTs : List (String × Nat))
    (body : String → Option JsVal) (clientLoadedAt now : Nat) : ReconcileState :=
  reconcileOver STATE_FIELDS existing body clientLoadedAt now
    { doc := existing, ts := existingTs, accepted := [], rejected := [] }

/-- Request-level behaviour of `saveStateHandler`: `_loadedAt` is read from the
body (`none` models absent / null / non-numeric falsy) and defaulted by
`_loadedAt || 0`; a request with no recognized field is answered with a 400
error, modelled as `none`. -/
def saveStateHandler (existing : List (String × JsVal)) (existingTs : List (String × Nat))
    (body : String → Option JsVal) (loadedAt : Option Nat) (now : Nat) :
    Option ReconcileState :=
  if STATE_FIELDS.any (fun f => (body f).isSome) then
    some (reconcile existing existingTs body (loadedAt.getD 0) now)
  else none

/-- Which branch of the reconcile loop a field takes (the if / else-if / else
chain of src/api/server.js lines 521-572, with the skip at line 517). -/
inductive FieldBranch where
  | skipped : FieldBranch
  | noConflict : FieldBranch
  | subKeyMerge : FieldBranch
  | conflictReject : FieldBranch
deriving DecidableEq

/-- The branch taken for `field`, computed from the loaded document and
timestamp map (the loop reads only the entry of the field being processed,
which no other iteration writes). -/
def fieldBranch (existing : List (String × JsVal)) (existingTs : List (String × Nat))
    (body : String → Option JsVal) (clientLoadedAt : Nat) (field : String) : FieldBranch :=
  match body field with
  | none => .skipped
  | some clientValue =>
    if clientLoadedAt = 0 ∨ (getKey existingTs field).getD 0 ≤ clientLoadedAt then
      .noConflict
    else
      match clientValue, getKey existing field with
      | .obj _, some (.obj _) => .subKeyMerge
      | _, _ => .conflictReject

/-- The effect of one loop iteration on the entries of its own field, computed
from the loaded document and timestamp map alone.  `newDoc` / `newTs` are the
resulting document / timestamp entries for the field, `accEntry` the string
pushed onto `accepted` (if any), `rej` whether the field is pushed onto
`rejected`.  This is the per-field reading of `reconcileField`, valid because
an iteration reads and writes only the entries of its own field. -/
structure FieldEffect where
  newDoc : Option JsVal
  newTs : Option Nat
  accEntry : Option String
  rej : Bool
deriving DecidableEq

/-- Per-field effect of the reconcile loop (see `FieldEffect`). -/
def fieldEffect (existing : List (String × JsVal)) (existingTs : List (String × Nat))
    (body : String → Option JsVal) (clientLoadedAt now : Nat) (f : String) : FieldEffect :=
  match body f with
  | none =>
    { newDoc := getKey existing f, newTs := getKey existingTs f,
      accEntry := none, rej := false }
  | some clientValue =>
    if clientLoadedAt = 0 ∨ (getKey existingTs f).getD 0 ≤ clientLoadedAt then
      if getKey existing f ≠ some clientValue then
        { newDoc := some clientValue, newTs := some now,
          accEntry := some f, rej := false }
      else
        { newDoc := getKey existing f, newTs := getKey existingTs f,
          accEntry := none, rej := false }
    else
      match clientValue, getKey existing f with
      | .obj cfs, some (.obj sfs) =>
        if changedSubKeysOf cfs sfs ≠ [] ∨ deletedKeysOf cfs sfs ≠ [] then
          { newDoc := some (.obj cfs), newTs := some now,
            accEntry := some (f ++ "(merged:" ++ mergeDesc cfs sfs ++ ")"), rej := false }
        else
          { newDoc := getKey existing f, newTs := getKey existingTs f,
            accEntry := none, rej := false }
      | _, _ =>
        { newDoc := getKey existing f, newTs := getKey existingTs f,
          accEntry := none, rej := true }

theorem reconcileField_spec (e : List (String × JsVal)) (ts : List (String × Nat))
    (body : String → Option JsVal) (la now : Nat) (st : ReconcileState) (g : String)
    (hts : getKey st.ts g = getKey ts g) (hdoc : getKey st.doc g = getKey e g) :
    getKey (reconcileField e body la now st g).doc g = (fieldEffect e ts body la now g).newDoc ∧
    getKey (reconcileField e body la now st g).ts g = (fieldEffect e ts body la now g).newTs ∧
    (reconcileField e body la now st g).accepted =
      st.accepted ++ (fieldEffect e ts body la now g).accEntry.toList ∧
    (reconcileField e body la now st g).rejected =
      st.rejected ++ (if (fieldEffect e ts body la now g).rej then [g] else []) := by
  cases hb : body g with
  | none =>
    simp [reconcileField, fieldEffect, hb, hdoc, hts]
  | some v =>
    by_cases hcond : la = 0 ∨ (getKey ts g).getD 0 ≤ la
    · by_cases hch : getKey e g = some v
      · have hnc : ¬(getKey e g ≠ some v) := by simpa using hch
        simp [reconcileField, fieldEffect, hb, hts, hcond, hch, hnc,
          getKey_setKey_self, hdoc]
      · simp [reconcileField, fieldEffect, hb, hts, hcond, hch,
          getKey_setKey_self]
    · match v, hg : getKey e g with
      | .obj cfs, some (.obj sfs) =>
        by_cases hne : changedSubKeysOf cfs sfs ≠ [] ∨ deletedKeysOf cfs sfs ≠ []
        · simp [reconcileField, fieldEffect, hb, hts, hcond, hg, hne,
            getKey_setKey_self]
        · simp [reconcileField, fieldEffect, hb, hts, hcond, hg, hne, hdoc]
      | .obj cfs, none =>
        simp [reconcileField, fieldEffect, hb, hts, hcond, hg, hdoc]
      | .obj cfs, some .null => simp [reconcileField, fieldEffect, hb, hts, hcond, hg, hdoc]
      | .obj cfs, some (.bool y) => simp [reconcileField, fieldEffect, hb, hts, hcond, hg, hdoc]
      | .obj cfs, some (.num y) => simp [reconcileField, fieldEffect, hb, hts, hcond, hg, hdoc]
      | .obj cfs, some (.str y) => simp [reconcileField, fieldEffect, hb, hts, hcond, hg, hdoc]
      | .obj cfs, some (.arr ys) => simp [reconcileField, fieldEffect, hb, hts, hcond, hg, hdoc]
      | .null, _ => simp [reconcileField, fieldEffect, hb, hts, hcond, hg, hdoc]
      | .bool x, _ => simp [reconcileField, fieldEffect, hb, hts, hcond, hg, hdoc]
      | .num x, _ => simp [reconcileField, fieldEffect, hb, hts, hcond, hg, hdoc]
      | .str x, _ => simp [reconcileField, fieldEffect, hb, hts, hcond, hg, hdoc]
      | .arr xs, _ => simp [reconcileField, fieldEffect, hb, hts, hcond, hg, hdoc]

theorem reconcileField_frame (e : List (String × JsVal))
    (body : String → Option JsVal) (la now : Nat) (st : ReconcileState) (g x : String)
    (hx : x ≠ g) :
    getKey (reconcileField e body la now st g).doc x = getKey st.doc x ∧
    getKey (reconcileField e body la now st g).ts x = getKey st.ts x := by
  cases hb : body g with
  | none => simp [reconcileField, hb]
  | some v =>
    by_cases hcond : la = 0 ∨ (getKey st.ts g).getD 0 ≤ la
    · by_cases hch : getKey e g ≠ some v <;>
        simp [reconcileField, hb, hcond, hch, getKey_setKey_ne _ g x _ hx]
    · match v, hg : getKey e g with
      | .obj cfs, some (.obj sfs) =>
        by_cases hne : changedSubKeysOf cfs sfs ≠ [] ∨ deletedKeysOf cfs sfs ≠ []
        · simp [reconcileField, hb, hcond, hg, hne, getKey_setKey_ne _ g x _ hx]
        · simp [reconcileField, hb, hcond, hg, hne]
      | .obj cfs, none => simp [reconcileField, hb, hcond, hg]
      | .obj cfs, some .null => simp [reconcileField, hb, hcond, hg]
      | .obj cfs, some (.bool y) => simp [reconcileField, hb, hcond, hg]
      | .obj cfs, some (.num y) => simp [reconcileField, hb, hcond, hg]
      | .obj cfs, some (.str y) => simp [reconcileField, hb, hcond, hg]
      | .obj cfs, some (.arr ys) => simp [reconcileField, hb, hcond, hg]
      | .null, _ => simp [reconcileField, hb, hcond, hg]
      | .bool x2, _ => simp [reconcileField, hb, hcond, hg]
      | .num x2, _ => simp [reconcileField, hb, hcond, hg]
      | .str x2, _ => simp [reconcileField, hb, hcond, hg]
      | .arr xs, _ => simp [reconcileField, hb, hcond, hg]

theorem reconcileField_ts_cases (e : List (String × JsVal))
    (body : String → Option JsVal) (la now : Nat) (st : ReconcileState) (g : String) :
    (reconcileField e body la now st g).ts = st.ts ∨
    (reconcileField e body la now st g).ts = setKey st.ts g now := by
  cases hb : body g with
  | none => left; simp [reconcileField, hb]
  | some v =>
    by_cases hcond : la = 0 ∨ (getKey st.ts g).getD 0 ≤ la
    · by_cases hch : getKey e g ≠ some v
      · right; simp [reconcileField, hb, hcond, hch]
      · left; simp [reconcileField, hb, hcond, hch]
    · match v, hg : getKey e g with
      | .obj cfs, some (.obj sfs) =>
        by_cases hne : changedSubKeysOf cfs sfs ≠ [] ∨ deletedKeysOf cfs sfs ≠ []
        · right; simp [reconcileField, hb, hcond, hg, hne]
        · left; simp [reconcileField, hb, hcond, hg, hne]
      | .obj cfs, none => left; simp [reconcileField, hb, hcond, hg]
      | .obj cfs, some .null => left; simp [reconcileField, hb, hcond, hg]
      | .obj cfs, some (.bool y) => left; simp [reconcileField, hb, hcond, hg]
      | .obj cfs, some (.num y) => left; simp [reconcileField, hb, hcond, hg]
      | .obj cfs, some (.str y) => left; simp [reconcileField, hb, hcond, hg]
      | .obj cfs, some (.arr ys) => left; simp [reconcileField, hb, hcond, hg]
      | .null, _ => left; simp [reconcileField, hb, hcond, hg]
      | .bool x2, _ => left; simp [reconcileField, hb, hcond, hg]
      | .num x2, _ => left; simp [reconcileField, hb, hcond, hg]
      | .str x2, _ => left; simp [reconcileField, hb, hcond, hg]
      | .arr xs, _ => left; simp [reconcileField, hb, hcond, hg]

theorem reconcileField_doc_cases (e : List (String × JsVal))
    (body : String → Option JsVal) (la now : Nat) (st : ReconcileState) (g : String) :
    (reconcileField e body la now st g).doc = st.doc ∨
    ∃ v, (reconcileField e body la now st g).doc = setKey st.doc g v := by
  cases hb : body g with
  | none => left; simp [reconcileField, hb]
  | some v =>
    by_cases hcond : la = 0 ∨ (getKey st.ts g).getD 0 ≤ la
    · by_cases hch : getKey e g ≠ some v
      · right; exact ⟨v, by simp [reconcileField, hb, hcond, hch]⟩
      · right; exact ⟨v, by simp [reconcileField, hb, hcond, hch]⟩
    · match v, hg : getKey e g with
      | .obj cfs, some (.obj sfs) =>
        by_cases hne : changedSubKeysOf cfs sfs ≠ [] ∨ deletedKeysOf cfs sfs ≠ []
        · right; exact ⟨.obj cfs, by simp [reconcileField, hb, hcond, hg, hne]⟩
        · left; simp [reconcileField, hb, hcond, hg, hne]
      | .obj cfs, none => left; simp [reconcileField, hb, hcond, hg]
      | .obj cfs, some .null => left; simp [reconcileField, hb, hcond, hg]
      | .obj cfs, some (.bool y) => left; simp [reconcileField, hb, hcond, hg]
      | .obj cfs, some (.num y) => left; simp [reconcileField, hb, hcond, hg]
      | .obj cfs, some (.str y) => left; simp [reconcileField, hb, hcond, hg]
      | .obj cfs, some (.arr ys) => left; simp [reconcileField, hb, hcond, hg]
      | .null, _ => left; simp [reconcileField, hb, hcond, hg]
      | .bool x2, _ => left; simp [reconcileField, hb, hcond, hg]
      | .num x2, _ => left; simp [reconcileField, hb, hcond, hg]
      | .str x2, _ => left; simp [reconcileField, hb, hcond, hg]
      | .arr xs, _ => left; simp [reconcileField, hb, hcond, hg]

theorem reconcileOver_frame (e : List (String × JsVal))
    (body : String → Option JsVal) (la now : Nat) :
    ∀ (fields : List String) (st : ReconcileState) (x : String), x ∉ fields →
    getKey (reconcileOver fields e body la now st).doc x = getKey st.doc x ∧
    getKey (reconcileOver fields e body la now st).ts x = getKey st.ts x := by
  intro fields
  induction fields with
  | nil => intro st x _; exact ⟨rfl, rfl⟩
  | cons g rest ih =>
    intro st x hx
    have hxg : x ≠ g := fun he => hx (by simp [he])
    have hxr : x ∉ rest := fun hr => hx (by simp [hr])
    have hstep := reconcileField_frame e body la now st g x hxg
    have hrest := ih (reconcileField e body la now st g) x hxr
    exact ⟨hrest.1.trans hstep.1, hrest.2.trans hstep.2⟩

theorem reconcileOver_ts_hasKey (e : List (String × JsVal))
    (body : String → Option JsVal) (la now : Nat) :
    ∀ (fields : List String) (st : ReconcileState) (k : String),
    hasKey st.ts k = true →
    hasKey (reconcileOver fields e body la now st).ts k = true := by
  intro fields
  induction fields with
  | nil => intro st k h; exact h
  | cons g rest ih =>
    intro st k h
    refine ih (reconcileField e body la now st g) k ?_
    rcases reconcileField_ts_cases e body la now st g with hc | hc
    · rw [hc]; exact h
    · rw [hc]; exact hasKey_setKey st.ts g k now h

theorem reconcileOver_doc_hasKey (e : List (String × JsVal))
    (body : String → Option JsVal) (la now : Nat) :
    ∀ (fields : List String) (st : ReconcileState) (k : String),
    hasKey st.doc k = true →
    hasKey (reconcileOver fields e body la now st).doc k = true := by
  intro fields
  induction fields with
  | nil => intro st k h; exact h
  | cons g rest ih =>
    intro st k h
    refine ih (reconcileField e body la now st g) k ?_
    rcases reconcileField_doc_cases e body la now st g with hc | ⟨v, hc⟩
    · rw [hc]; exact h
    · rw [hc]; exact hasKey_setKey st.doc g k v h

theorem reconcileOver_eq_of_id (e : List (String × JsVal))
    (body : String → Option JsVal) (la now : Nat) :
    ∀ (fields : List String) (st : ReconcileState),
    (∀ g ∈ fields, reconcileField e body la now st g = st) →
    reconcileOver fields e body la now st = st := by
  intro fields
  induction fields with
  | nil => intro st _; rfl
  | cons g rest ih =>
    intro st h
    have hg := h g (by simp)
    have : reconcileOver (g :: rest) e body la now st = reconcileOver rest e body la now st := by
      show reconcileOver rest e body la now (reconcileField e body la now st g) = _
      rw [hg]
    rw [this]
    exact ih st (fun x hx => h x (by simp [hx]))

theorem reconcileOver_spec (e : List (String × JsVal)) (ts : List (String × Nat))
    (body : String → Option JsVal) (la now : Nat) :
    ∀ (fields : List String) (st : ReconcileState), fields.Nodup →
    (∀ g ∈ fields, getKey st.ts g = getKey ts g ∧ getKey st.doc g = getKey e g) →
    (∀ f ∈ fields,
      getKey (reconcileOver fields e body la now st).doc f =
        (fieldEffect e ts body la now f).newDoc ∧
      getKey (reconcileOver fields e body la now st).ts f =
        (fieldEffect e ts body la now f).newTs) ∧
    (reconcileOver fields e body la now st).accepted =
      st.accepted ++ fields.filterMap (fun g => (fieldEffect e ts body la now g).accEntry) ∧
    (reconcileOver fields e body la now st).rejected =
      st.rejected ++ fields.filter (fun g => (fieldEffect e ts body la now g).rej) := by
  intro fields
  induction fields with
  | nil =>
    intro st _ _
    exact ⟨fun f hf => absurd hf (List.not_mem_nil f), by simp [reconcileOver], by
      simp [reconcileOver]⟩
  | cons g rest ih =>
    intro st hnd hinv
    have hg := hinv g (by simp)
    have hstep := reconcileField_spec e ts body la now st g hg.1 hg.2
    have hnd2 : rest.Nodup := (List.nodup_cons.mp hnd).2
    have hgnot : g ∉ rest := (List.nodup_cons.mp hnd).1
    have hinv2 : ∀ x ∈ rest,
        getKey (reconcileField e body la now st g).ts x = getKey ts x ∧
        getKey (reconcileField e body la now st g).doc x = getKey e x := by
      intro x hx
      have hxg : x ≠ g := fun he => hgnot (he ▸ hx)
      have hf := reconcileField_frame e body la now st g x hxg
      have hix := hinv x (by simp [hx])
      exact ⟨hf.2.trans hix.1, hf.1.trans hix.2⟩
    have ihrest := ih (reconcileField e body la now st g) hnd2 hinv2
    have hfold : reconcileOver (g :: rest) e body la now st =
        reconcileOver rest e body la now (reconcileField e body la now st g) := rfl
    refine ⟨?_, ?_, ?_⟩
    · intro f hf
      rcases List.mem_cons.mp hf with hfg | hfr
      · subst hfg
        have hfr2 := reconcileOver_frame e body la now rest
          (reconcileField e body la now st f) f hgnot
        rw [hfold]
        exact ⟨hfr2.1.trans hstep.1, hfr2.2.trans hstep.2.1⟩
      · rw [hfold]; exact ihrest.1 f hfr
    · rw [hfold, ihrest.2.1, hstep.2.2.1, List.filterMap_cons]
      cases (fieldEffect e ts body la now g).accEntry <;> simp
    · rw [hfold, ihrest.2.2, hstep.2.2.2, List.filter_cons]
      by_cases hrej : (fieldEffect e ts body la now g).rej = true <;> simp [hrej]

theorem reconcile_spec (e : List (String × JsVal)) (ts : List (String × Nat))
    (body : String → Option JsVal) (la now : Nat) :
    (∀ f ∈ STATE_FIELDS,
      getKey (reconcile e ts body la now).doc f = (fieldEffect e ts body la now f).newDoc ∧
      getKey (reconcile e ts body la now).ts f = (fieldEffect e ts body la now f).newTs) ∧
    (reconcile e ts body la now).accepted =
      STATE_FIELDS.filterMap (fun g => (fieldEffect e ts body la now g).accEntry) ∧
    (reconcile e ts body la now).rejected =
      STATE_FIELDS.filter (fun g => (fieldEffect e ts body la now g).rej) := by
  have h := reconcileOver_spec e ts body la now STATE_FIELDS
    { doc := e, ts := ts, accepted := [], rejected := [] } (by decide)
    (fun g _ => ⟨rfl, rfl⟩)
  simpa [reconcile] using h

theorem fieldEffect_skip (e : List (String × JsVal)) (ts : List (String × Nat))
    (body : String → Option JsVal) (la now : Nat) (f : String)
    (hb : body f = none) :
    fieldEffect e ts body la now f =
      { newDoc := getKey e f, newTs := getKey ts f, accEntry := none, rej := false } := by
  simp [fieldEffect, hb]

theorem fieldEffect_accept_changed (e : List (String × JsVal)) (ts : List (String × Nat))
    (body : String → Option JsVal) (la now : Nat) (f : String) (v : JsVal)
    (hb : body f = some v) (hcond : la = 0 ∨ (getKey ts f).getD 0 ≤ la)
    (hch : getKey e f ≠ some v) :
    fieldEffect e ts body la now f =
      { newDoc := some v, newTs := some now, accEntry := some f, rej := false } := by
  simp [fieldEffect, hb, hcond, hch]

theorem fieldEffect_accept_noop (e : List (String × JsVal)) (ts : List (String × Nat))
    (body : String → Option JsVal) (la now : Nat) (f : String) (v : JsVal)
    (hb : body f = some v) (hcond : la = 0 ∨ (getKey ts f).getD 0 ≤ la)
    (hch : getKey e f = some v) :
    fieldEffect e ts body la now f =
      { newDoc := getKey e f, newTs := getKey ts f, accEntry := none, rej := false } := by
  simp [fieldEffect, hb, hcond, hch]

theorem fieldEffect_merge_changed (e : List (String × JsVal)) (ts : List (String × Nat))
    (body : String → Option JsVal) (la now : Nat) (f : String)
    (cfs sfs : List (String × JsVal))
    (hb : body f = some (.obj cfs)) (hcond : ¬(la = 0 ∨ (getKey ts f).getD 0 ≤ la))
    (hsv : getKey e f = some (.obj sfs))
    (hne : changedSubKeysOf cfs sfs ≠ [] ∨ deletedKeysOf cfs sfs ≠ []) :
    fieldEffect e ts body la now f =
      { newDoc := some (.obj cfs), newTs := some now,
        accEntry := some (f ++ "(merged:" ++ mergeDesc cfs sfs ++ ")"), rej := false } := by
  simp [fieldEffect, hb, hcond, hsv, hne]

theorem fieldEffect_merge_noop (e : List (String × JsVal)) (ts : List (String × Nat))
    (body : String → Option JsVal) (la now : Nat) (f : String)
    (cfs sfs : List (String × JsVal))
    (hb : body f = some (.obj cfs)) (hcond : ¬(la = 0 ∨ (getKey ts f).getD 0 ≤ la))
    (hsv : getKey e f = some (.obj sfs))
    (hne : ¬(changedSubKeysOf cfs sfs ≠ [] ∨ deletedKeysOf cfs sfs ≠ [])) :
    fieldEffect e ts body la now f =
      { newDoc := getKey e f, newTs := getKey ts f, accEntry := none, rej := false } := by
  simp only [fieldEffect, hb, hcond, if_false, hsv]
  simp [hsv, hne]

theorem fieldEffect_reject (e : List (String × JsVal)) (ts : List (String × Nat))
    (body : String → Option JsVal) (la now : Nat) (f : String) (v : JsVal)
    (hb : body f = some v) (hcond : ¬(la = 0 ∨ (getKey ts f).getD 0 ≤ la))
    (hshape : (∀ cfs, v ≠ JsVal.obj cfs) ∨ (∀ sfs, getKey e f ≠ some (JsVal.obj sfs))) :
    fieldEffect e ts body la now f =
      { newDoc := getKey e f, newTs := getKey ts f, accEntry := none, rej := true } := by
  match v, hg : getKey e f with
  | .obj cfs, some (.obj sfs) =>
    rcases hshape with hs | hs
    · exact absurd rfl (hs cfs)
    · rw [hg] at hs; exact absurd rfl (hs sfs)
  | .obj cfs, none => simp [fieldEffect, hb, hcond, hg]
  | .obj cfs, some .null => simp [fieldEffect, hb, hcond, hg]
  | .obj cfs, some (.bool y) => simp [fieldEffect, hb, hcond, hg]
  | .obj cfs, some (.num y) => simp [fieldEffect, hb, hcond, hg]
  | .obj cfs, some (.str y) => simp [fieldEffect, hb, hcond, hg]
  | .obj cfs, some (.arr ys) => simp [fieldEffect, hb, hcond, hg]
  | .null, _ => simp [fieldEffect, hb, hcond, hg]
  | .bool x2, _ => simp [fieldEffect, hb, hcond, hg]
  | .num x2, _ => simp [fieldEffect, hb, hcond, hg]
  | .str x2, _ => simp [fieldEffect, hb, hcond, hg]
  | .arr xs, _ => simp [fieldEffect, hb, hcond, hg]

theorem fieldEffect_congr_body (e : List (String × JsVal)) (ts : List (String × Nat))
    (body body2 : String → Option JsVal) (la now : Nat) (f : String)
    (h : body f = body2 f) :
    fieldEffect e ts body la now f = fieldEffect e ts body2 la now f := by
  unfold fieldEffect
  rw [h]

theorem changedSubKeysOf_self (cfs : List (String × JsVal)) :
    changedSubKeysOf cfs cfs = [] := by
  simp [changedSubKeysOf]

theorem deletedKeysOf_self (sfs : List (String × JsVal)) :
    deletedKeysOf sfs sfs = [] := by
  rw [deletedKeysOf]
  rw [List.filter_eq_nil_iff]
  intro k hk
  simp [(hasKey_iff_mem_keys sfs k).mpr hk]

/-- When the merge loop detects a changed or deleted sub-key, the client and
server objects really differ structurally. -/
theorem ne_of_merge_changed (cfs sfs : List (String × JsVal))
    (hne : changedSubKeysOf cfs sfs ≠ [] ∨ deletedKeysOf cfs sfs ≠ []) :
    cfs ≠ sfs := by
  intro he
  subst he
  rcases hne with h | h
  · exact h (changedSubKeysOf_self cfs)
  · exact h (deletedKeysOf_self cfs)

theorem reconcileField_skip (e : List (String × JsVal))
    (body : String → Option JsVal) (la now : Nat) (st : ReconcileState) (g : String)
    (hb : body g = none) : reconcileField e body la now st g = st := by
  simp [reconcileField, hb]

theorem reconcileField_noop_accept (e : List (String × JsVal))
    (body : String → Option JsVal) (la now : Nat) (st : ReconcileState) (g : String)
    (v : JsVal) (hb : body g = some v)
    (hcond : la = 0 ∨ (getKey st.ts g).getD 0 ≤ la)
    (hch : getKey e g = some v) (hdoc : getKey st.doc g = some v) :
    reconcileField e body la now st g = st := by
  have hset : setKey st.doc g v = st.doc := setKey_eq_of_getKey_eq st.doc g v hdoc
  simp [reconcileField, hb, hcond, hch, hset]

theorem reconcileField_noop_merge (e : List (String × JsVal))
    (body : String → Option JsVal) (la now : Nat) (st : ReconcileState) (g : String)
    (cfs sfs : List (String × JsVal)) (hb : body g = some (.obj cfs))
    (hcond : ¬(la = 0 ∨ (getKey st.ts g).getD 0 ≤ la))
    (hsv : getKey e g = some (.obj sfs))
    (hne : ¬(changedSubKeysOf cfs sfs ≠ [] ∨ deletedKeysOf cfs sfs ≠ [])) :
    reconcileField e body la now st g = st := by
  simp only [reconcileField, hb, hcond, if_false, hsv]
  simp [hsv, hne]

theorem fieldEffect_rej_false_of_cond (e : List (String × JsVal)) (ts : List (String × Nat))
    (body : String → Option JsVal) (la now : Nat) (f : String) (v : JsVal)
    (hb : body f = some v) (hcond : la = 0 ∨ (getKey ts f).getD 0 ≤ la) :
    (fieldEffect e ts body la now f).rej = false := by
  by_cases hch : getKey e f = some v
  · rw [fieldEffect_accept_noop e ts body la now f v hb hcond hch]
  · rw [fieldEffect_accept_changed e ts body la now f v hb hcond hch]

/-- Trichotomy of the per-field effect: either the field entry and timestamp are
both untouched, or the client value is adopted with the timestamp bumped, or a
sub-key merge with actual changes is adopted with the timestamp bumped. -/
theorem fieldEffect_cases (e : List (String × JsVal)) (ts : List (String × Nat))
    (body : String → Option JsVal) (la now : Nat) (f : String) :
    ((fieldEffect e ts body la now f).newDoc = getKey e f ∧
     (fieldEffect e ts body la now f).newTs = getKey ts f) ∨
    (∃ v, body f = some v ∧ getKey e f ≠ some v ∧
      (fieldEffect e ts body la now f).newDoc = some v ∧
      (fieldEffect e ts body la now f).newTs = some now) ∨
    (∃ cfs sfs, body f = some (JsVal.obj cfs) ∧ getKey e f = some (JsVal.obj sfs) ∧
      (changedSubKeysOf cfs sfs ≠ [] ∨ deletedKeysOf cfs sfs ≠ []) ∧
      (fieldEffect e ts body la now f).newDoc = some (JsVal.obj cfs) ∧
      (fieldEffect e ts body la now f).newTs = some now) := by
  cases hb : body f with
  | none => left; rw [fieldEffect_skip e ts body la now f hb]; exact ⟨rfl, rfl⟩
  | some v =>
    by_cases hcond : la = 0 ∨ (getKey ts f).getD 0 ≤ la
    · by_cases hch : getKey e f = some v
      · left
        rw [fieldEffect_accept_noop e ts body la now f v hb hcond hch]
        exact ⟨rfl, rfl⟩
      · right; left
        refine ⟨v, rfl, hch, ?_, ?_⟩ <;>
          rw [fieldEffect_accept_changed e ts body la now f v hb hcond hch]
    · match v, hg : getKey e f with
      | .obj cfs, some (.obj sfs) =>
        by_cases hne : changedSubKeysOf cfs sfs ≠ [] ∨ deletedKeysOf cfs sfs ≠ []
        · right; right
          refine ⟨cfs, sfs, rfl, rfl, hne, ?_, ?_⟩ <;>
            rw [fieldEffect_merge_changed e ts body la now f cfs sfs hb hcond hg hne]
        · left
          rw [fieldEffect_merge_noop e ts body la now f cfs sfs hb hcond hg hne]
          exact ⟨hg, rfl⟩
      | .obj cfs, none => left; simp [fieldEffect, hb, hcond, hg]
      | .obj cfs, some .null => left; simp [fieldEffect, hb, hcond, hg]
      | .obj cfs, some (.bool y) => left; simp [fieldEffect, hb, hcond, hg]
      | .obj cfs, some (.num y) => left; simp [fieldEffect, hb, hcond, hg]
      | .obj cfs, some (.str y) => left; simp [fieldEffect, hb, hcond, hg]
      | .obj cfs, some (.arr ys) => left; simp [fieldEffect, hb, hcond, hg]
      | .null, _ => left; simp [fieldEffect, hb, hcond, hg]
      | .bool x2, _ => left; simp [fieldEffect, hb, hcond, hg]
      | .num x2, _ => left; simp [fieldEffect, hb, hcond, hg]
      | .str x2, _ => left; simp [fieldEffect, hb, hcond, hg]
      | .arr xs, _ => left; simp [fieldEffect, hb, hcond, hg]

/-- C7: a known field absent from (or undefined in) the save request keeps both
its document value and its timestamp entry unchanged, and the resulting
document still contains every key of the previous document — a partial update
touches only the fields it names. -/
theorem C7_partial_update_untouched (e : List (String × JsVal)) (ts : List (String × Nat))
    (body : String → Option JsVal) (la now : Nat) (f : String)
    (hb : body f = none) :
    getKey (reconcile e ts body la now).doc f = getKey e f ∧
    getKey (reconcile e ts body la now).ts f = getKey ts f ∧
    (∀ k, hasKey e k = true → hasKey (reconcile e ts body la now).doc k = true) := by
  refine ⟨?_, ?_, ?_⟩
  · by_cases hf : f ∈ STATE_FIELDS
    · have h := ((reconcile_spec e ts body la now).1 f hf).1
      rw [h, fieldEffect_skip e ts body la now f hb]
    · exact (reconcileOver_frame e body la now STATE_FIELDS _ f hf).1
  · by_cases hf : f ∈ STATE_FIELDS
    · have h := ((reconcile_spec e ts body la now).1 f hf).2
      rw [h, fieldEffect_skip e ts body la now f hb]
    · exact (reconcileOver_frame e body la now STATE_FIELDS _ f hf).2
  · intro k hk
    exact reconcileOver_doc_hasKey e body la now STATE_FIELDS _ k hk

/-- C3: the no-conflict (accept) path is taken exactly when `loadedAt` is zero
or the field timestamp (zero when absent) is at most `loadedAt`; the boundary
case of equality is accepted, `loadedAt = 0` accepts regardless of timestamps,
and in both cases the resulting field value is the client value and the field
is not in the rejected list. -/
theorem C3_freshness_boundary_force (e : List (String × JsVal)) (ts : List (String × Nat))
    (body : String → Option JsVal) (la now : Nat) (f : String) (v : JsVal)
    (hf : f ∈ STATE_FIELDS) (hb : body f = some v) :
    (fieldBranch e ts body la f = FieldBranch.noConflict ↔
      (la = 0 ∨ (getKey ts f).getD 0 ≤ la)) ∧
    ((la = 0 ∨ (getKey ts f).getD 0 ≤ la) →
      getKey (reconcile e ts body la now).doc f = some v ∧
      f ∉ (reconcile e ts body la now).rejected) := by
  constructor
  · by_cases hc : la = 0 ∨ (getKey ts f).getD 0 ≤ la
    · simp [fieldBranch, hb, hc]
    · simp only [fieldBranch, hb, if_neg hc]
      constructor
      · intro hbr
        exfalso
        revert hbr
        match v, getKey e f with
        | .obj cfs, some (.obj sfs) => simp
        | .obj cfs, none => simp
        | .obj cfs, some .null => simp
        | .obj cfs, some (.bool y) => simp
        | .obj cfs, some (.num y) => simp
        | .obj cfs, some (.str y) => simp
        | .obj cfs, some (.arr ys) => simp
        | .null, _ => simp
        | .bool x2, _ => simp
        | .num x2, _ => simp
        | .str x2, _ => simp
        | .arr xs, _ => simp
      · intro hcond; exact absurd hcond hc
  · intro hcond
    have hs := reconcile_spec e ts body la now
    refine ⟨?_, ?_⟩
    · by_cases hch : getKey e f = some v
      · rw [(hs.1 f hf).1, fieldEffect_accept_noop e ts body la now f v hb hcond hch]
        exact hch
      · rw [(hs.1 f hf).1, fieldEffect_accept_changed e ts body la now f v hb hcond hch]
    · rw [hs.2.2]
      intro hmem
      have hm := List.mem_filter.mp hmem
      rw [fieldEffect_rej_false_of_cond e ts body la now f v hb hcond] at hm
      exact Bool.false_ne_true hm.2

/-- C2: on the no-conflict path the client value is compared to the server
value by deep structural equality; when equal, the field value and its
timestamp entry stay unchanged — and a single-field no-op save leaves the
whole state (document, timestamp map, reports) exactly as loaded — when
unequal, the client value is adopted and the timestamp set to `now`. -/
theorem C2_no_conflict_deep_equality (e : List (String × JsVal)) (ts : List (String × Nat))
    (body : String → Option JsVal) (la now : Nat) (f : String) (v : JsVal)
    (hf : f ∈ STATE_FIELDS) (hb : body f = some v)
    (hcond : la = 0 ∨ (getKey ts f).getD 0 ≤ la) :
    (getKey e f = some v →
      getKey (reconcile e ts body la now).doc f = getKey e f ∧
      getKey (reconcile e ts body la now).ts f = getKey ts f ∧
      ((∀ g, g ≠ f → body g = none) →
        reconcile e ts body la now =
          { doc := e, ts := ts, accepted := [], rejected := [] })) ∧
    (getKey e f ≠ some v →
      getKey (reconcile e ts body la now).doc f = some v ∧
      getKey (reconcile e ts body la now).ts f = some now) := by
  have hs := reconcile_spec e ts body la now
  constructor
  · intro hch
    refine ⟨?_, ?_, ?_⟩
    · rw [(hs.1 f hf).1, fieldEffect_accept_noop e ts body la now f v hb hcond hch]
    · rw [(hs.1 f hf).2, fieldEffect_accept_noop e ts body la now f v hb hcond hch]
    · intro hothers
      refine reconcileOver_eq_of_id e body la now STATE_FIELDS _ ?_
      intro g hg
      by_cases hgf : g = f
      · subst hgf
        exact reconcileField_noop_accept e body la now _ g v hb hcond hch hch
      · exact reconcileField_skip e body la now _ g (hothers g hgf)
  · intro hch
    refine ⟨?_, ?_⟩
    · rw [(hs.1 f hf).1, fieldEffect_accept_changed e ts body la now f v hb hcond hch]
    · rw [(hs.1 f hf).2, fieldEffect_accept_changed e ts body la now f v hb hcond hch]

/-- C1: on a conflicting object-vs-object field, the merged value is a shallow
copy of the client value — client sub-keys keep the client values, server-only
sub-keys are absent (deletion-by-omission) — and when at least one sub-key was
changed, added or deleted, the merged object becomes the field value, its
timestamp is set to `now`, and an accepted entry is recorded for the field;
when nothing changed, value and timestamp stay put and the whole outcome
(including the accepted and rejected reports) is as if the field were not in
the request. -/
theorem C1_conflict_object_merge (e : List (String × JsVal)) (ts : List (String × Nat))
    (body : String → Option JsVal) (la now : Nat) (f : String)
    (cfs sfs : List (String × JsVal))
    (hf : f ∈ STATE_FIELDS) (hb : body f = some (JsVal.obj cfs))
    (hla : la ≠ 0) (hstale : la < (getKey ts f).getD 0)
    (hsv : getKey e f = some (JsVal.obj sfs)) :
    ((changedSubKeysOf cfs sfs ≠ [] ∨ deletedKeysOf cfs sfs ≠ []) →
      ∃ m, getKey (reconcile e ts body la now).doc f = some (JsVal.obj m) ∧
        (∀ k, getKey m k = getKey cfs k) ∧
        (∀ k, hasKey sfs k = true → hasKey cfs k = false → getKey m k = none) ∧
        getKey (reconcile e ts body la now).ts f = some now ∧
        (∃ d, (f ++ "(merged:" ++ d ++ ")") ∈ (reconcile e ts body la now).accepted)) ∧
    (changedSubKeysOf cfs sfs = [] ∧ deletedKeysOf cfs sfs = [] →
      getKey (reconcile e ts body la now).doc f = getKey e f ∧
      getKey (reconcile e ts body la now).ts f = getKey ts f ∧
      (reconcile e ts body la now).accepted =
        (reconcile e ts (fun g => if g = f then none else body g) la now).accepted ∧
      (reconcile e ts body la now).rejected =
        (reconcile e ts (fun g => if g = f then none else body g) la now).rejected) := by
  have hncond : ¬(la = 0 ∨ (getKey ts f).getD 0 ≤ la) := by
    rintro (h0 | hle)
    · exact hla h0
    · omega
  have hs := reconcile_spec e ts body la now
  constructor
  · intro hne
    refine ⟨cfs, ?_, fun k => rfl, ?_, ?_, ?_⟩
    · rw [(hs.1 f hf).1, fieldEffect_merge_changed e ts body la now f cfs sfs hb hncond hsv hne]
    · intro k _ hck
      exact getKey_eq_none_of_not_hasKey cfs k hck
    · rw [(hs.1 f hf).2, fieldEffect_merge_changed e ts body la now f cfs sfs hb hncond hsv hne]
    · refine ⟨mergeDesc cfs sfs, ?_⟩
      rw [hs.2.1]
      refine List.mem_filterMap.mpr ⟨f, hf, ?_⟩
      rw [fieldEffect_merge_changed e ts body la now f cfs sfs hb hncond hsv hne]
  · rintro ⟨hc, hd⟩
    have hnoch : ¬(changedSubKeysOf cfs sfs ≠ [] ∨ deletedKeysOf cfs sfs ≠ []) := by
      simp [hc, hd]
    have heff : ∀ g ∈ STATE_FIELDS,
        fieldEffect e ts body la now g =
        fieldEffect e ts (fun g2 => if g2 = f then none else body g2) la now g := by
      intro g _
      by_cases hgf : g = f
      · subst hgf
        rw [fieldEffect_merge_noop e ts body la now g cfs sfs hb hncond hsv hnoch,
          fieldEffect_skip e ts _ la now g (by simp)]
      · exact fieldEffect_congr_body e ts body _ la now g (by simp [hgf])
    have hs2 := reconcile_spec e ts (fun g2 => if g2 = f then none else body g2) la now
    refine ⟨?_, ?_, ?_, ?_⟩
    · rw [(hs.1 f hf).1, fieldEffect_merge_noop e ts body la now f cfs sfs hb hncond hsv hnoch]
    · rw [(hs.1 f hf).2, fieldEffect_merge_noop e ts body la now f cfs sfs hb hncond hsv hnoch]
    · rw [hs.2.1, hs2.2.1]
      exact List.filterMap_congr (fun g hg => by rw [heff g hg])
    · rw [hs.2.2, hs2.2.2]
      exact List.filter_congr (fun g hg => by rw [heff g hg])

/-- C4: a conflicting field whose client or server value is not a keyed object
(array, primitive, null, or a type mismatch) keeps the server value and
timestamp, discards the client value, and lands on the rejected list; the
embedding is total, so no exception is raised on any such input. -/
theorem C4_conflict_non_object_rejected (e : List (String × JsVal)) (ts : List (String × Nat))
    (body : String → Option JsVal) (la now : Nat) (f : String) (v : JsVal)
    (hf : f ∈ STATE_FIELDS) (hb : body f = some v)
    (hla : la ≠ 0) (hstale : la < (getKey ts f).getD 0)
    (hshape : (∀ cfs, v ≠ JsVal.obj cfs) ∨ (∀ sfs, getKey e f ≠ some (JsVal.obj sfs))) :
    getKey (reconcile e ts body la now).doc f = getKey e f ∧
    getKey (reconcile e ts body la now).ts f = getKey ts f ∧
    f ∈ (reconcile e ts body la now).rejected := by
  have hncond : ¬(la = 0 ∨ (getKey ts f).getD 0 ≤ la) := by
    rintro (h0 | hle)
    · exact hla h0
    · omega
  have hs := reconcile_spec e ts body la now
  have heff := fieldEffect_reject e ts body la now f v hb hncond hshape
  refine ⟨?_, ?_, ?_⟩
  · rw [(hs.1 f hf).1, heff]
  · rw [(hs.1 f hf).2, heff]
  · rw [hs.2.2]
    exact List.mem_filter.mpr ⟨hf, by rw [heff]⟩

/-- C5: within one reconcile call, a known field's document value changes
(structurally) iff that field's timestamp entry is set to `now` in the same
call; and no call deletes an entry of the field timestamp map. -/
theorem C5_value_change_iff_timestamp_bump (e : List (String × JsVal))
    (ts : List (String × Nat)) (body : String → Option JsVal) (la now : Nat) (f : String)
    (hf : f ∈ STATE_FIELDS) (hnow : getKey ts f ≠ some now) :
    (getKey (reconcile e ts body la now).doc f ≠ getKey e f ↔
      getKey (reconcile e ts body la now).ts f = some now) ∧
    (∀ k, hasKey ts k = true → hasKey (reconcile e ts body la now).ts k = true) := by
  have hs := (reconcile_spec e ts body la now).1 f hf
  constructor
  · rw [hs.1, hs.2]
    rcases fieldEffect_cases e ts body la now f with ⟨hd, ht⟩ | ⟨v, _, hch, hd, ht⟩ |
      ⟨cfs, sfs, _, hsv, hne, hd, ht⟩
    · rw [hd, ht]
      simp [hnow]
    · rw [hd, ht]
      simp only [iff_true]
      exact fun he => hch he.symm
    · rw [hd, ht, hsv]
      have hobj : JsVal.obj cfs ≠ JsVal.obj sfs :=
        fun hh => (ne_of_merge_changed cfs sfs hne) (JsVal.obj.inj hh)
      simp only [iff_true]
      exact fun he => hobj (Option.some.inj he)
  · intro k hk
    exact reconcileOver_ts_hasKey e body la now STATE_FIELDS _ k hk

/-- C8: a save request with `_loadedAt` absent (or any other falsy value,
modelled by `none`) behaves exactly like `loadedAt = 0` force-overwrite mode:
every present known field is adopted over the stored value and no field is
rejected, regardless of the stored timestamps. -/
theorem C8_falsy_loadedAt_forces (e : List (String × JsVal)) (ts : List (String × Nat))
    (body : String → Option JsVal) (now : Nat) :
    saveStateHandler e ts body none now = saveStateHandler e ts body (some 0) now ∧
    (∀ r, saveStateHandler e ts body none now = some r →
      (∀ f ∈ STATE_FIELDS, ∀ v, body f = some v → getKey r.doc f = some v) ∧
      r.rejected = []) := by
  constructor
  · rfl
  · intro r hr
    rw [saveStateHandler] at hr
    by_cases hany : STATE_FIELDS.any (fun f => (body f).isSome) = true
    · rw [if_pos hany] at hr
      have hrr : r = reconcile e ts body 0 now := (Option.some.inj hr).symm
      subst hrr
      have hs := reconcile_spec e ts body 0 now
      constructor
      · intro f hf v hb
        by_cases hch : getKey e f = some v
        · rw [(hs.1 f hf).1, fieldEffect_accept_noop e ts body 0 now f v hb (Or.inl rfl) hch]
          exact hch
        · rw [(hs.1 f hf).1, fieldEffect_accept_changed e ts body 0 now f v hb (Or.inl rfl) hch]
      · rw [hs.2.2]
        rw [List.filter_eq_nil_iff]
        intro g _
        cases hb : body g with
        | none => rw [fieldEffect_skip e ts body 0 now g hb]; simp
        | some v =>
          rw [fieldEffect_rej_false_of_cond e ts body 0 now g v hb (Or.inl rfl)]
          simp
    · rw [if_neg hany] at hr
      exact absurd hr (Option.noConfusion)

/-- Concrete loaded document used by the witnesses. -/
def exDoc : List (String × JsVal) :=
  [("capacity", .obj [("backend", .num 40), ("frontend", .num 10)]),
   ("milestones", .arr [.num 1, .num 2])]

/-- Concrete loaded timestamp map used by the witnesses. -/
def exTs : List (String × Nat) := [("capacity", 100), ("milestones", 100)]

theorem C1_witness :
    ∃ m, getKey (reconcile exDoc exTs
        (fun g => if g = "capacity" then some (JsVal.obj [("backend", JsVal.num 45)]) else none)
        50 200).doc "capacity" = some (JsVal.obj m) ∧
      (∀ k, getKey m k = getKey [("backend", JsVal.num 45)] k) ∧
      (∀ k, hasKey [("backend", JsVal.num 40), ("frontend", JsVal.num 10)] k = true →
        hasKey [("backend", JsVal.num 45)] k = false → getKey m k = none) ∧
      getKey (reconcile exDoc exTs
        (fun g => if g = "capacity" then some (JsVal.obj [("backend", JsVal.num 45)]) else none)
        50 200).ts "capacity" = some 200 ∧
      (∃ d, ("capacity" ++ "(merged:" ++ d ++ ")") ∈ (reconcile exDoc exTs
        (fun g => if g = "capacity" then some (JsVal.obj [("backend", JsVal.num 45)]) else none)
        50 200).accepted) :=
  (C1_conflict_object_merge exDoc exTs _ 50 200 "capacity"
    [("backend", JsVal.num 45)] [("backend", JsVal.num 40), ("frontend", JsVal.num 10)]
    (by decide) rfl (by decide) (by decide) (by decide)).1 (by decide)

theorem C2_witness :
    reconcile exDoc exTs
      (fun g => if g = "capacity"
        then some (JsVal.obj [("backend", JsVal.num 40), ("frontend", JsVal.num 10)]) else none)
      100 200 =
    { doc := exDoc, ts := exTs, accepted := [], rejected := [] } :=
  ((C2_no_conflict_deep_equality exDoc exTs _ 100 200 "capacity"
      (JsVal.obj [("backend", JsVal.num 40), ("frontend", JsVal.num 10)])
      (by decide) rfl (by decide)).1 (by decide)).2.2
    (fun g hg => by simp [hg])

theorem C3_witness :
    fieldBranch exDoc exTs
      (fun g => if g = "capacity" then some (JsVal.obj [("backend", JsVal.num 77)]) else none)
      100 "capacity" = FieldBranch.noConflict ∧
    getKey (reconcile exDoc exTs
      (fun g => if g = "capacity" then some (JsVal.obj [("backend", JsVal.num 77)]) else none)
      100 200).doc "capacity" = some (JsVal.obj [("backend", JsVal.num 77)]) ∧
    "capacity" ∉ (reconcile exDoc exTs
      (fun g => if g = "capacity" then some (JsVal.obj [("backend", JsVal.num 77)]) else none)
      100 200).rejected := by
  have h := C3_freshness_boundary_force exDoc exTs
    (fun g => if g = "capacity" then some (JsVal.obj [("backend", JsVal.num 77)]) else none)
    100 200 "capacity" (JsVal.obj [("backend", JsVal.num 77)]) (by decide) rfl
  exact ⟨h.1.mpr (by decide), (h.2 (by decide)).1, (h.2 (by decide)).2⟩

theorem C4_witness :
    getKey (reconcile exDoc exTs
      (fun g => if g = "milestones" then some (JsVal.arr [JsVal.num 9]) else none)
      50 200).doc "milestones" = getKey exDoc "milestones" ∧
    getKey (reconcile exDoc exTs
      (fun g => if g = "milestones" then some (JsVal.arr [JsVal.num 9]) else none)
      50 200).ts "milestones" = getKey exTs "milestones" ∧
    "milestones" ∈ (reconcile exDoc exTs
      (fun g => if g = "milestones" then some (JsVal.arr [JsVal.num 9]) else none)
      50 200).rejected :=
  C4_conflict_non_object_rejected exDoc exTs _ 50 200 "milestones" (JsVal.arr [JsVal.num 9])
    (by decide) rfl (by decide) (by decide)
    (Or.inl (fun cfs h => JsVal.noConfusion h))

theorem C5_witness :
    (getKey (reconcile exDoc exTs
        (fun g => if g = "capacity" then some (JsVal.obj [("backend", JsVal.num 99)]) else none)
        100 200).doc "capacity" ≠ getKey exDoc "capacity" ↔
      getKey (reconcile exDoc exTs
        (fun g => if g = "capacity" then some (JsVal.obj [("backend", JsVal.num 99)]) else none)
        100 200).ts "capacity" = some 200) ∧
    (∀ k, hasKey exTs k = true → hasKey (reconcile exDoc exTs
        (fun g => if g = "capacity" then some (JsVal.obj [("backend", JsVal.num 99)]) else none)
        100 200).ts k = true) :=
  C5_value_change_iff_timestamp_bump exDoc exTs _ 100 200 "capacity" (by decide) (by decide)

theorem C7_witness :
    getKey (reconcile exDoc exTs
      (fun g => if g = "capacity" then some (JsVal.obj [("backend", JsVal.num 99)]) else none)
      100 200).doc "milestones" = getKey exDoc "milestones" ∧
    getKey (reconcile exDoc exTs
      (fun g => if g = "capacity" then some (JsVal.obj [("backend", JsVal.num 99)]) else none)
      100 200).ts "milestones" = getKey exTs "milestones" ∧
    (∀ k, hasKey exDoc k = true → hasKey (reconcile exDoc exTs
      (fun g => if g = "capacity" then some (JsVal.obj [("backend", JsVal.num 99)]) else none)
      100 200).doc k = true) :=
  C7_partial_update_untouched exDoc exTs _ 100 200 "milestones" (by decide)

theorem C8_witness :
    saveStateHandler exDoc exTs
      (fun g => if g = "capacity" then some (JsVal.obj [("backend", JsVal.num 99)]) else none)
      none 200 =
    saveStateHandler exDoc exTs
      (fun g => if g = "capacity" then some (JsVal.obj [("backend", JsVal.num 99)]) else none)
      (some 0) 200 ∧
    getKey (reconcile exDoc exTs
      (fun g => if g = "capacity" then some (JsVal.obj [("backend", JsVal.num 99)]) else none)
      0 200).doc "capacity" = some (JsVal.obj [("backend", JsVal.num 99)]) ∧
    (reconcile exDoc exTs
      (fun g => if g = "capacity" then some (JsVal.obj [("backend", JsVal.num 99)]) else none)
      0 200).rejected = [] := by
  have h := C8_falsy_loadedAt_forces exDoc exTs
    (fun g => if g = "capacity" then some (JsVal.obj [("backend", JsVal.num 99)]) else none) 200
  refine ⟨h.1, ?_, ?_⟩
  · exact (h.2 _ (by decide)).1 "capacity" (by decide) _ rfl
  · exact (h.2 _ (by decide)).2

theorem getKey_delKey_self {α : Type} (fs : List (String × α)) (k : String) :
    getKey (delKey fs k) k = none := by
  induction fs with
  | nil => rfl
  | cons p rest ih =>
    obtain ⟨k2, v2⟩ := p
    by_cases h : k2 = k <;> simp [delKey, getKey, h, ih]

theorem getKey_delKey_ne {α : Type} (fs : List (String × α)) (k k2 : String)
    (h : k2 ≠ k) : getKey (delKey fs k) k2 = getKey fs k2 := by
  induction fs with
  | nil => rfl
  | cons p rest ih =>
    obtain ⟨k3, v3⟩ := p
    by_cases h3 : k3 = k
    · subst h3
      have hk : ¬(k3 = k2) := fun hh => h hh.symm
      simp [delKey, getKey, hk, ih]
    · simp [delKey, getKey, h3, ih]

/-- Truthiness of `o[k]` (`undefined`, hence a missing key, is falsy). -/
def truthyEntry (fs : List (String × JsVal)) (k : String) : Bool :=
  match getKey fs k with
  | some v => v.truthy
  | none => false

/-- `if (!result[k]) result[k] = []` from `migrateTracks`. -/
def ensureTrackKey (fs : List (String × JsVal)) (k : String) : List (String × JsVal) :=
  if truthyEntry fs k then fs else setKey fs k (.arr [])

/-- `migrateTracks` from shared/computations.js (src/unnamed/part_007 lines
55-65): the legacy gamification→gateway rename — value moved, old key deleted —
fires only when `gamification` is present and `gateway` absent; afterwards the
three expected track keys are default-filled with `[]` whenever their current
value is falsy (the source tests `!result[k]`, so a present-but-falsy value is
also replaced).  The `.getD .null` is never used: the guard guarantees the
gamification entry exists. -/
def migrateTracks (tracks : List (String × JsVal)) : List (String × JsVal) :=
  let renamed :=
    if hasKey tracks "gamification" = true ∧ hasKey tracks "gateway" = false then
      delKey (setKey tracks "gateway" ((getKey tracks "gamification").getD JsVal.null))
        "gamification"
    else tracks
  ensureTrackKey (ensureTrackKey (ensureTrackKey renamed "core-bonus") "gateway") "seo-aff"

theorem truthyEntry_hasKey (fs : List (String × JsVal)) (k : String)
    (h : truthyEntry fs k = true) : hasKey fs k = true := by
  rw [truthyEntry] at h
  cases hg : getKey fs k with
  | none => rw [hg] at h; exact absurd h (by simp)
  | some v => rw [hasKey, hg]; rfl

theorem ensureTrackKey_getKey_ne (fs : List (String × JsVal)) (k k2 : String)
    (h : k2 ≠ k) : getKey (ensureTrackKey fs k) k2 = getKey fs k2 := by
  rw [ensureTrackKey]
  by_cases ht : truthyEntry fs k = true
  · rw [if_pos ht]
  · rw [if_neg ht]
    exact getKey_setKey_ne fs k k2 _ h

theorem truthyEntry_ensureTrackKey_self (fs : List (String × JsVal)) (k : String) :
    truthyEntry (ensureTrackKey fs k) k = true := by
  rw [ensureTrackKey]
  by_cases ht : truthyEntry fs k = true
  · rw [if_pos ht]; exact ht
  · rw [if_neg ht, truthyEntry, getKey_setKey_self]
    rfl

theorem truthyEntry_ensureTrackKey_ne (fs : List (String × JsVal)) (k k2 : String)
    (h : k2 ≠ k) : truthyEntry (ensureTrackKey fs k) k2 = truthyEntry fs k2 := by
  rw [truthyEntry, truthyEntry, ensureTrackKey_getKey_ne fs k k2 h]

theorem ensureTrackKey_id_of_truthy (fs : List (String × JsVal)) (k : String)
    (h : truthyEntry fs k = true) : ensureTrackKey fs k = fs := by
  rw [ensureTrackKey, if_pos h]

/-- After `migrateTracks`, each expected track key holds a truthy value. -/
theorem migrateTracks_truthy (tracks : List (String × JsVal)) :
    truthyEntry (migrateTracks tracks) "core-bonus" = true ∧
    truthyEntry (migrateTracks tracks) "gateway" = true ∧
    truthyEntry (migrateTracks tracks) "seo-aff" = true := by
  rw [migrateTracks]
  refine ⟨?_, ?_, ?_⟩
  · rw [truthyEntry_ensureTrackKey_ne _ _ _ (by decide),
      truthyEntry_ensureTrackKey_ne _ _ _ (by decide)]
    exact truthyEntry_ensureTrackKey_self _ _
  · rw [truthyEntry_ensureTrackKey_ne _ _ _ (by decide)]
    exact truthyEntry_ensureTrackKey_self _ _
  · exact truthyEntry_ensureTrackKey_self _ _

/-- The migration is idempotent. -/
theorem migrateTracks_idem (tracks : List (String × JsVal)) :
    migrateTracks (migrateTracks tracks) = migrateTracks tracks := by
  have ht := migrateTracks_truthy tracks
  have hgk : hasKey (migrateTracks tracks) "gateway" = true :=
    truthyEntry_hasKey _ _ ht.2.1
  conv_lhs => rw [migrateTracks]
  rw [if_neg (by rintro ⟨_, h2⟩; rw [hgk] at h2; cases h2)]
  rw [ensureTrackKey_id_of_truthy _ _ ht.1,
    ensureTrackKey_id_of_truthy _ _ ht.2.1,
    ensureTrackKey_id_of_truthy _ _ ht.2.2]

theorem truthyEntry_eq (fs : List (String × JsVal)) (k : String) (v : JsVal)
    (h : getKey fs k = some v) : truthyEntry fs k = v.truthy := by
  rw [truthyEntry, h]

/-- C10 counterexample: with both the old and the new track key present but the
new key holding a falsy value (`null`), the migration does not leave both
values untouched — the default-fill resets the falsy `gateway` value to `[]`. -/
theorem C10_counterexample :
    hasKey [("gamification", JsVal.arr []), ("gateway", JsVal.null)] "gamification" = true ∧
    hasKey [("gamification", JsVal.arr []), ("gateway", JsVal.null)] "gateway" = true ∧
    getKey (migrateTracks [("gamification", JsVal.arr []), ("gateway", JsVal.null)])
        "gateway" ≠
      getKey [("gamification", JsVal.arr []), ("gateway", JsVal.null)] "gateway" := by
  decide

/-- C10 (amended): the rename moves the old key's value to the new key only
when the old key is present and the new key absent (and the moved value, when
truthy, survives the default-fill; the old key is removed); when both keys are
present neither is renamed: the old key's value is untouched, and the new
key's value is untouched provided it is truthy — a present-but-falsy value is
reset to `[]` by the default-fill, which is what the counterexample forces us
to except.  The migration is idempotent. -/
theorem C10_legacy_rename_amended (tracks : List (String × JsVal)) :
    (∀ v, getKey tracks "gamification" = some v → hasKey tracks "gateway" = false →
      v.truthy = true →
      getKey (migrateTracks tracks) "gateway" = some v ∧
      hasKey (migrateTracks tracks) "gamification" = false) ∧
    (hasKey tracks "gateway" = true →
      getKey (migrateTracks tracks) "gamification" = getKey tracks "gamification" ∧
      (∀ v, getKey tracks "gateway" = some v → v.truthy = true →
        getKey (migrateTracks tracks) "gateway" = some v)) ∧
    migrateTracks (migrateTracks tracks) = migrateTracks tracks := by
  refine ⟨?_, ?_, migrateTracks_idem tracks⟩
  · intro v hgam hgw htr
    have hguard : hasKey tracks "gamification" = true ∧ hasKey tracks "gateway" = false := by
      refine ⟨?_, hgw⟩
      rw [hasKey, hgam]
      rfl
    simp only [migrateTracks]
    rw [if_pos hguard, hgam]
    set renamed := delKey (setKey tracks "gateway" ((some v).getD JsVal.null)) "gamification"
      with hrn
    have hrg : getKey renamed "gateway" = some v := by
      rw [hrn, getKey_delKey_ne _ _ _ (by decide), getKey_setKey_self]
      rfl
    have hcb : getKey (ensureTrackKey renamed "core-bonus") "gateway" = some v := by
      rw [ensureTrackKey_getKey_ne _ _ _ (by decide), hrg]
    have hgwid : ensureTrackKey (ensureTrackKey renamed "core-bonus") "gateway" =
        ensureTrackKey renamed "core-bonus" := by
      refine ensureTrackKey_id_of_truthy _ _ ?_
      rw [truthyEntry_eq _ _ v hcb]
      exact htr
    constructor
    · rw [ensureTrackKey_getKey_ne _ _ _ (by decide), hgwid, hcb]
    · rw [hasKey, ensureTrackKey_getKey_ne _ _ _ (by decide), hgwid,
        ensureTrackKey_getKey_ne _ _ _ (by decide), hrn,
        getKey_delKey_self]
      rfl
  · intro hgw
    have hguard : ¬(hasKey tracks "gamification" = true ∧ hasKey tracks "gateway" = false) := by
      rintro ⟨_, h2⟩
      rw [hgw] at h2
      cases h2
    constructor
    · simp only [migrateTracks]
      rw [if_neg hguard, ensureTrackKey_getKey_ne _ _ _ (by decide),
        ensureTrackKey_getKey_ne _ _ _ (by decide),
        ensureTrackKey_getKey_ne _ _ _ (by decide)]
    · intro v hv htr
      simp only [migrateTracks]
      rw [if_neg hguard]
      have hcb : getKey (ensureTrackKey tracks "core-bonus") "gateway" = some v := by
        rw [ensureTrackKey_getKey_ne _ _ _ (by decide), hv]
      have hgwid : ensureTrackKey (ensureTrackKey tracks "core-bonus") "gateway" =
          ensureTrackKey tracks "core-bonus" := by
        refine ensureTrackKey_id_of_truthy _ _ ?_
        rw [truthyEntry_eq _ _ v hcb]
        exact htr
      rw [ensureTrackKey_getKey_ne _ _ _ (by decide), hgwid, hcb]

theorem C10_witness :
    (getKey (migrateTracks [("gamification", JsVal.arr [JsVal.num 1])]) "gateway" =
        some (JsVal.arr [JsVal.num 1]) ∧
      hasKey (migrateTracks [("gamification", JsVal.arr [JsVal.num 1])]) "gamification" =
        false) ∧
    (getKey (migrateTracks [("gamification", JsVal.arr [JsVal.num 1]),
        ("gateway", JsVal.arr [JsVal.num 2])]) "gamification" =
      some (JsVal.arr [JsVal.num 1]) ∧
     getKey (migrateTracks [("gamification", JsVal.arr [JsVal.num 1]),
        ("gateway", JsVal.arr [JsVal.num 2])]) "gateway" =
      some (JsVal.arr [JsVal.num 2])) ∧
    migrateTracks (migrateTracks [("gamification", JsVal.arr [JsVal.num 1])]) =
      migrateTracks [("gamification", JsVal.arr [JsVal.num 1])] := by
  have h1 := (C10_legacy_rename_amended [("gamification", JsVal.arr [JsVal.num 1])]).1
    (JsVal.arr [JsVal.num 1]) (by decide) (by decide) (by decide)
  have h2 := (C10_legacy_rename_amended [("gamification", JsVal.arr [JsVal.num 1]),
    ("gateway", JsVal.arr [JsVal.num 2])]).2.1 (by decide)
  have h3 := (C10_legacy_rename_amended [("gamification", JsVal.arr [JsVal.num 1])]).2.2
  exact ⟨h1, ⟨h2.1.trans (by decide), h2.2 (JsVal.arr [JsVal.num 2]) (by decide) (by decide)⟩, h3⟩

/-- A canonical array index: the strings JS treats as array indices
(`"0"`, `"1"`, ..., round-tripping through Nat). -/
def parseIndex (k : String) : Option Nat :=
  match k.toNat? with
  | some i => if toString i = k then some i else none
  | none => none

/-- `Object.keys(v)`: field names for plain objects, index strings for arrays
and strings, empty for primitives. -/
def keysJS : JsVal → List String
  | .obj fs => fs.map Prod.fst
  | .arr xs => (List.range xs.length).map (fun i => toString i)
  | .str s => (List.range s.length).map (fun i => toString i)
  | _ => []

/-- Property access `v[k]` (`none` = `undefined`; `v` is never `null` at the
call sites, which guard with truthiness, so `null` simply yields `none`). -/
def getJS : JsVal → String → Option JsVal
  | .obj fs, k => getKey fs k
  | .arr xs, k =>
    if k = "length" then some (.num xs.length)
    else
      match parseIndex k with
      | some i => xs.get? i
      | none => none
  | .str s, k =>
    if k = "length" then some (.num s.length)
    else
      match parseIndex k with
      | some i => (s.data.get? i).map (fun c => JsVal.str (String.mk [c]))
      | none => none
  | _, _ => none

/-- The `in` operator `k in v`: `none` models the TypeError thrown when the
right operand is a primitive. -/
def hasJS : JsVal → String → Option Bool
  | .obj fs, k => some (hasKey fs k)
  | .arr xs, k =>
    some (k = "length" ||
      (match parseIndex k with
       | some i => decide (i < xs.length)
       | none => false))
  | _, _ => none

/-- The record `{ merged, overlaid, deleted }` returned by `deepMergeObject`. -/
structure DeepMergeOut where
  merged : List (String × JsVal)
  overlaid : List String
  deleted : List String
deriving DecidableEq

/-- Result of `deepMergeObject`: either `localValue` itself (the early
returns) or the merge record. -/
inductive DeepMergeRet where
  | raw (v : JsVal) : DeepMergeRet
  | out (o : DeepMergeOut) : DeepMergeRet
deriving DecidableEq

/-- The `for (const subKey of Object.keys(latestServer))` loop of
`deepMergeObject`, threading the merged object and the overlay report.  A
`none` result models the TypeError of `subKey in captured` on a primitive
baseline.  When the loop would assign `merged[subKey] = latestServer[subKey]`
with the right side `undefined`, the accumulator is left unchanged; this case
is unreachable because `subKey` ranges over `Object.keys(latestServer)`. -/
def dmLoop (lfs : List (String × JsVal)) (ls captured : JsVal) :
    List String → List (String × JsVal) × List String →
    Option (List (String × JsVal) × List String)
  | [], acc => some acc
  | subKey :: rest, acc =>
    match hasJS captured subKey with
    | none => none
    | some inCaptured =>
      let acc2 :=
        if !inCaptured then
          match getJS ls subKey with
          | some v => (setKey acc.1 subKey v, acc.2 ++ ["+" ++ subKey])
          | none => acc
        else if hasKey lfs subKey then
          if getKey lfs subKey = getJS captured subKey then
            match getJS ls subKey with
            | some v => (setKey acc.1 subKey v, acc.2)
            | none => acc
          else acc
        else acc
      dmLoop lfs ls captured rest acc2

/-- `deepMergeObject` from shared/computations.js (src/unnamed/part_007 lines
86-115): the client-side pre-merge.  Non-object local values (arrays,
primitives, null) are returned as they are; so is the local value when
`latestServer` is absent or falsy.  Otherwise the merged object starts as a
spread of the local value, server keys absent from the captured baseline are
overlaid, keys the user left untouched (deep-equal to the baseline) adopt the
latest server value, and the rest keep the local content.  The `deleted`
report lists baseline keys absent from the local value. -/
def deepMergeObject (localValue : JsVal) (latestServer capturedServer : Option JsVal) :
    Option DeepMergeRet :=
  match localValue with
  | .obj lfs =>
    match latestServer with
    | none => some (.raw localValue)
    | some ls =>
      if ls.truthy = false then some (.raw localValue)
      else
        let captured :=
          match capturedServer with
          | some c => if c.truthy then c else ls
          | none => ls
        match dmLoop lfs ls captured (keysJS ls) (lfs, []) with
        | none => none
        | some (merged, overlaid) =>
          some (.out ⟨merged, overlaid, (keysJS captured).filter (fun k => !hasKey lfs k)⟩)
  | v => some (.raw v)

/-- What one loop iteration of `deepMergeObject` writes at its key, when both
the latest server value and the baseline are plain objects (`none` = the
iteration leaves the accumulator unchanged). -/
def dmWrite (lfs ls cs : List (String × JsVal)) (k : String) : Option JsVal :=
  if hasKey cs k = false then getKey ls k
  else if hasKey lfs k = true ∧ getKey lfs k = getKey cs k then getKey ls k
  else none

theorem dmLoop_obj_spec (lfs ls cs : List (String × JsVal)) :
    ∀ (K : List String) (acc : List (String × JsVal) × List String),
    ∃ merged overlaid,
      dmLoop lfs (.obj ls) (.obj cs) K acc = some (merged, overlaid) ∧
      (∀ k v, dmWrite lfs ls cs k = some v →
        getKey merged k = if k ∈ K then some v else getKey acc.1 k) ∧
      (∀ k, dmWrite lfs ls cs k = none → getKey merged k = getKey acc.1 k) := by
  intro K
  induction K with
  | nil =>
    intro acc
    exact ⟨acc.1, acc.2, rfl, fun k v _ => by simp, fun k _ => rfl⟩
  | cons k0 rest ih =>
    intro acc
    have hbranch : ∃ acc2 : List (String × JsVal) × List String,
        dmLoop lfs (.obj ls) (.obj cs) (k0 :: rest) acc =
          dmLoop lfs (.obj ls) (.obj cs) rest acc2 ∧
        (∀ v, dmWrite lfs ls cs k0 = some v → acc2.1 = setKey acc.1 k0 v) ∧
        (dmWrite lfs ls cs k0 = none → acc2.1 = acc.1) := by
      simp only [dmLoop, hasJS]
      by_cases h1 : hasKey cs k0 = false
      · cases hv : getJS (.obj ls) k0 with
        | some v =>
          refine ⟨(setKey acc.1 k0 v, acc.2 ++ ["+" ++ k0]), by simp [h1, hv], ?_, ?_⟩
          · intro v2 hw
            rw [dmWrite, if_pos h1] at hw
            have : v = v2 := by
              have := hv.symm.trans hw
              exact Option.some.inj this
            rw [this]
          · intro hw
            rw [dmWrite, if_pos h1] at hw
            rw [show getJS (JsVal.obj ls) k0 = getKey ls k0 from rfl, hw] at hv
            cases hv
        | none =>
          refine ⟨acc, by simp [h1, hv], ?_, fun _ => rfl⟩
          intro v2 hw
          rw [dmWrite, if_pos h1] at hw
          rw [show getJS (JsVal.obj ls) k0 = getKey ls k0 from rfl, hw] at hv
          cases hv
      · have h1t : hasKey cs k0 = true := by
          cases h : hasKey cs k0
          · exact absurd h h1
          · rfl
        by_cases h2 : hasKey lfs k0 = true ∧ getKey lfs k0 = getKey cs k0
        · cases hv : getJS (.obj ls) k0 with
          | some v =>
            refine ⟨(setKey acc.1 k0 v, acc.2), ?_, ?_, ?_⟩
            · simp [h1t, h2.1, h2.2, hv,
                show getJS (JsVal.obj cs) k0 = getKey cs k0 from rfl]
            · intro v2 hw
              rw [dmWrite, if_neg (by rw [h1t]; simp), if_pos h2] at hw
              have : v = v2 := Option.some.inj (hv.symm.trans hw)
              rw [this]
            · intro hw
              rw [dmWrite, if_neg (by rw [h1t]; simp), if_pos h2] at hw
              rw [show getJS (JsVal.obj ls) k0 = getKey ls k0 from rfl, hw] at hv
              cases hv
          | none =>
            refine ⟨acc, ?_, ?_, fun _ => rfl⟩
            · simp [h1t, h2.1, h2.2, hv,
                show getJS (JsVal.obj cs) k0 = getKey cs k0 from rfl]
            · intro v2 hw
              rw [dmWrite, if_neg (by rw [h1t]; simp), if_pos h2] at hw
              rw [show getJS (JsVal.obj ls) k0 = getKey ls k0 from rfl, hw] at hv
              cases hv
        · refine ⟨acc, ?_, ?_, fun _ => rfl⟩
          · by_cases h2a : hasKey lfs k0 = true
            · have h2b : ¬(getKey lfs k0 = getKey cs k0) := fun hh => h2 ⟨h2a, hh⟩
              simp [h1t, h2a, show getJS (JsVal.obj cs) k0 = getKey cs k0 from rfl, h2b]
            · simp [h1t, h2a]
          · intro v2 hw
            rw [dmWrite, if_neg (by rw [h1t]; simp), if_neg h2] at hw
            cases hw
    obtain ⟨acc2, hstep, hset, hkeep⟩ := hbranch
    obtain ⟨merged, overlaid, hrun, hsome, hnone⟩ := ih acc2
    have hacc2_ne : ∀ k, k ≠ k0 → getKey acc2.1 k = getKey acc.1 k := by
      intro k hk
      cases hw : dmWrite lfs ls cs k0 with
      | some v => rw [hset v hw]; exact getKey_setKey_ne acc.1 k0 k v hk
      | none => rw [hkeep hw]
    refine ⟨merged, overlaid, hstep.trans hrun, ?_, ?_⟩
    · intro k v hw
      by_cases hk : k = k0
      · subst hk
        have hs := hsome k v hw
        by_cases hr : k ∈ rest
        · rw [hs, if_pos hr, if_pos (by simp [hr])]
        · rw [hs, if_neg hr, hset v hw, getKey_setKey_self, if_pos (by simp)]
      · have hs := hsome k v hw
        rw [hs, hacc2_ne k hk]
        by_cases hr : k ∈ rest
        · rw [if_pos hr, if_pos (by simp [hr])]
        · rw [if_neg hr, if_neg (by simp [hk, hr])]
    · intro k hw
      by_cases hk : k = k0
      · subst hk
        rw [hnone k hw, hkeep hw]
      · rw [hnone k hw, hacc2_ne k hk]

/-- C6: the client-side pre-merge returns the local value unchanged when the
local value is not a keyed object or the latest server value is absent;
otherwise the merged result is the local value overlaid, for every sub-key of
the latest server value, as follows: a key absent from the captured baseline
takes the latest server value (server-side addition wins); a key present in
the local value whose local content deep-equals the baseline takes the latest
server value; in every other case the local content wins — in particular a key
absent from the local value stays absent.  Keys outside the latest server
value keep the local content. -/
theorem C6_deep_merge_object (localValue : JsVal) (latestServer capturedServer : Option JsVal)
    (ls cs : List (String × JsVal)) :
    (localValue.isPlainObject = false →
      deepMergeObject localValue latestServer capturedServer =
        some (DeepMergeRet.raw localValue)) ∧
    (latestServer = none →
      deepMergeObject localValue latestServer capturedServer =
        some (DeepMergeRet.raw localValue)) ∧
    (∀ lfs, localValue = JsVal.obj lfs → latestServer = some (JsVal.obj ls) →
      capturedServer = some (JsVal.obj cs) →
      ∃ o, deepMergeObject localValue latestServer capturedServer =
          some (DeepMergeRet.out o) ∧
        (∀ k, hasKey ls k = true →
          (hasKey cs k = false → getKey o.merged k = getKey ls k) ∧
          (hasKey cs k = true → hasKey lfs k = true → getKey lfs k = getKey cs k →
            getKey o.merged k = getKey ls k) ∧
          (hasKey cs k = true → ¬(hasKey lfs k = true ∧ getKey lfs k = getKey cs k) →
            getKey o.merged k = getKey lfs k)) ∧
        (∀ k, hasKey ls k = false → getKey o.merged k = getKey lfs k)) := by
  refine ⟨?_, ?_, ?_⟩
  · intro hobj
    cases localValue with
    | obj lfs => cases hobj
    | null => rfl
    | bool b => rfl
    | num n => rfl
    | str s => rfl
    | arr xs => rfl
  · intro hl
    subst hl
    cases localValue <;> rfl
  · intro lfs hlv hl hc
    subst hlv
    subst hl
    subst hc
    obtain ⟨merged, overlaid, hrun, hsome, hnone⟩ :=
      dmLoop_obj_spec lfs ls cs (keysJS (.obj ls)) (lfs, [])
    refine ⟨⟨merged, overlaid,
        (keysJS (.obj cs)).filter (fun k => !hasKey lfs k)⟩, ?_, ?_, ?_⟩
    · simp [deepMergeObject, JsVal.truthy, hrun]
    · intro k hlsk
      have hkK : k ∈ keysJS (.obj ls) := (hasKey_iff_mem_keys ls k).mp hlsk
      have hlsv : ∃ v, getKey ls k = some v := by
        rw [hasKey] at hlsk
        cases hg : getKey ls k with
        | none => rw [hg] at hlsk; cases hlsk
        | some v => exact ⟨v, rfl⟩
      obtain ⟨v, hv⟩ := hlsv
      refine ⟨?_, ?_, ?_⟩
      · intro hcs
        have hw : dmWrite lfs ls cs k = some v := by
          rw [dmWrite, if_pos hcs, hv]
        rw [hsome k v hw, if_pos hkK, hv]
      · intro hcs hlf heq
        have hw : dmWrite lfs ls cs k = some v := by
          rw [dmWrite, if_neg (by rw [hcs]; simp), if_pos ⟨hlf, heq⟩, hv]
        rw [hsome k v hw, if_pos hkK, hv]
      · intro hcs hne
        have hw : dmWrite lfs ls cs k = none := by
          rw [dmWrite, if_neg (by rw [hcs]; simp), if_neg hne]
        exact hnone k hw
    · intro k hlsk
      have hlsn : getKey ls k = none := getKey_eq_none_of_not_hasKey ls k hlsk
      have hw : dmWrite lfs ls cs k = none := by
        rw [dmWrite]
        by_cases hcs : hasKey cs k = false
        · rw [if_pos hcs, hlsn]
        · rw [if_neg hcs]
          by_cases h2 : hasKey lfs k = true ∧ getKey lfs k = getKey cs k
          · rw [if_pos h2, hlsn]
          · rw [if_neg h2]
      exact hnone k hw

theorem C6_witness :
    ∃ o, deepMergeObject (JsVal.obj [("a", JsVal.num 1), ("b", JsVal.num 99)])
        (some (JsVal.obj [("a", JsVal.num 10), ("b", JsVal.num 2)]))
        (some (JsVal.obj [("a", JsVal.num 1), ("b", JsVal.num 2)])) =
        some (DeepMergeRet.out o) ∧
      (∀ k, hasKey [("a", JsVal.num 10), ("b", JsVal.num 2)] k = true →
        (hasKey [("a", JsVal.num 1), ("b", JsVal.num 2)] k = false →
          getKey o.merged k = getKey [("a", JsVal.num 10), ("b", JsVal.num 2)] k) ∧
        (hasKey [("a", JsVal.num 1), ("b", JsVal.num 2)] k = true →
          hasKey [("a", JsVal.num 1), ("b", JsVal.num 99)] k = true →
          getKey [("a", JsVal.num 1), ("b", JsVal.num 99)] k =
            getKey [("a", JsVal.num 1), ("b", JsVal.num 2)] k →
          getKey o.merged k = getKey [("a", JsVal.num 10), ("b", JsVal.num 2)] k) ∧
        (hasKey [("a", JsVal.num 1), ("b", JsVal.num 2)] k = true →
          ¬(hasKey [("a", JsVal.num 1), ("b", JsVal.num 99)] k = true ∧
            getKey [("a", JsVal.num 1), ("b", JsVal.num 99)] k =
              getKey [("a", JsVal.num 1), ("b", JsVal.num 2)] k) →
          getKey o.merged k = getKey [("a", JsVal.num 1), ("b", JsVal.num 99)] k)) ∧
      (∀ k, hasKey [("a", JsVal.num 10), ("b", JsVal.num 2)] k = false →
        getKey o.merged k = getKey [("a", JsVal.num 1), ("b", JsVal.num 99)] k) :=
  (C6_deep_merge_object (JsVal.obj [("a", JsVal.num 1), ("b", JsVal.num 99)])
    (some (JsVal.obj [("a", JsVal.num 10), ("b", JsVal.num 2)]))
    (some (JsVal.obj [("a", JsVal.num 1), ("b", JsVal.num 2)]))
    [("a", JsVal.num 10), ("b", JsVal.num 2)]
    [("a", JsVal.num 1), ("b", JsVal.num 2)]).2.2
    [("a", JsVal.num 1), ("b", JsVal.num 99)] rfl rfl rfl

/-- A mutable discipline record: its own enumerable number fields. -/
abbrev DiscRecord := List (String × Int)

/-- `ZERO_DISC()` from shared/computations.js. -/
def ZERO_DISC : DiscRecord := [("backend", 0), ("frontend", 0), ("natives", 0), ("qa", 0)]

/-- A heap of record objects keyed by address; models JS object identity for
the per-track records of a track-capacity value. -/
abbrev Heap := List (Nat × DiscRecord)

def heapGet : Heap → Nat → Option DiscRecord
  | [], _ => none
  | (a2, r) :: rest, a => if a2 = a then some r else heapGet rest a

/-- In-place mutation of the record at address `a`. -/
def heapSet : Heap → Nat → DiscRecord → Heap
  | [], a, r => [(a, r)]
  | (a2, r2) :: rest, a, r =>
      if a2 = a then (a2, r) :: rest else (a2, r2) :: heapSet rest a r

/-- A track-capacity object: track keys mapping to record addresses. -/
abbrev TrackCapRef := List (String × Nat)

/-- `JSON.parse(JSON.stringify(tc))`: allocates a fresh record object for every
entry, with contents equal to the source record. -/
def copyRecords : TrackCapRef → Heap → Nat → TrackCapRef × Heap × Nat
  | [], h, n => ([], h, n)
  | (k, a) :: rest, h, n =>
    let s := copyRecords rest (h ++ [(n, (heapGet h a).getD [])]) (n + 1)
    ((k, n) :: s.1, s.2.1, s.2.2)

/-- `if (!result[k]) result[k] = { ...ZERO }`: every present entry is a record
object, hence truthy, so the falsiness test is a presence test; the default is
a freshly allocated shallow copy of `ZERO_DISC`. -/
def ensureCapKey (tc : TrackCapRef) (h : Heap) (n : Nat) (k : String) :
    TrackCapRef × Heap × Nat :=
  if hasKey tc k then (tc, h, n)
  else (setKey tc k n, h ++ [(n, ZERO_DISC)], n + 1)

/-- `migrateTrackCapacity` from shared/computations.js (src/unnamed/part_007
lines 67-74), in a store-passing model that keeps object identity of the
per-track records: the input is deep-copied (`tc ? JSON.parse(...) : {}` — an
absent or null input becomes an empty object), then each expected track key
missing from the result is filled with a fresh zero record. -/
def migrateTrackCapacity (tc : Option TrackCapRef) (h : Heap) (n : Nat) :
    TrackCapRef × Heap × Nat :=
  let s0 := match tc with
    | some entries => copyRecords entries h n
    | none => ([], h, n)
  let s1 := ensureCapKey s0.1 s0.2.1 s0.2.2 "core-bonus"
  let s2 := ensureCapKey s1.1 s1.2.1 s1.2.2 "gateway"
  ensureCapKey s2.1 s2.2.1 s2.2.2 "seo-aff"

theorem heapGet_mem (h : Heap) (a : Nat) (r : DiscRecord)
    (hg : heapGet h a = some r) : (a, r) ∈ h := by
  induction h with
  | nil => cases hg
  | cons p rest ih =>
    obtain ⟨a2, r2⟩ := p
    by_cases he : a2 = a
    · subst he
      rw [heapGet, if_pos rfl] at hg
      rw [Option.some.inj hg] at *
      exact List.mem_cons_self _ _
    · rw [heapGet, if_neg he] at hg
      exact List.mem_cons_of_mem _ (ih hg)

theorem heapGet_append_left (h ext : Heap) (a : Nat) (r : DiscRecord)
    (hg : heapGet h a = some r) : heapGet (h ++ ext) a = some r := by
  induction h with
  | nil => cases hg
  | cons p rest ih =>
    obtain ⟨a2, r2⟩ := p
    by_cases he : a2 = a
    · rw [heapGet, if_pos he] at hg
      rw [List.cons_append, heapGet, if_pos he]
      exact hg
    · rw [heapGet, if_neg he] at hg
      rw [List.cons_append, heapGet, if_neg he]
      exact ih hg

theorem heapGet_none_of_forall_ne (h : Heap) (a : Nat)
    (hne : ∀ p ∈ h, p.1 ≠ a) : heapGet h a = none := by
  induction h with
  | nil => rfl
  | cons p rest ih =>
    obtain ⟨a2, r2⟩ := p
    rw [heapGet, if_neg (hne (a2, r2) (List.mem_cons_self _ _)), ih]
    intro q hq
    exact hne q (List.mem_cons_of_mem _ hq)

theorem heapGet_append_out (h ext : Heap) (a : Nat)
    (hne : ∀ p ∈ ext, p.1 ≠ a) : heapGet (h ++ ext) a = heapGet h a := by
  induction h with
  | nil => rw [List.nil_append]; exact heapGet_none_of_forall_ne ext a hne
  | cons p rest ih =>
    obtain ⟨a2, r2⟩ := p
    by_cases he : a2 = a
    · rw [List.cons_append, heapGet, if_pos he, heapGet, if_pos he]
    · rw [List.cons_append, heapGet, if_neg he, heapGet, if_neg he]
      exact ih

theorem heapGet_heapSet_ne (h : Heap) (a a2 : Nat) (r : DiscRecord)
    (hne : a2 ≠ a) : heapGet (heapSet h a r) a2 = heapGet h a2 := by
  induction h with
  | nil =>
    have hne2 : ¬(a = a2) := fun hh => hne hh.symm
    simp [heapSet, heapGet, hne2]
  | cons p rest ih =>
    obtain ⟨a3, r3⟩ := p
    by_cases he : a3 = a
    · subst he
      have hne2 : ¬(a3 = a2) := fun hh => hne hh.symm
      simp [heapSet, heapGet, hne2]
    · by_cases he2 : a3 = a2 <;> simp [heapSet, heapGet, he, he2, ih, hne]

theorem heapGet_append_singleton (h : Heap) (a : Nat) (r : DiscRecord)
    (hnone : heapGet h a = none) : heapGet (h ++ [(a, r)]) a = some r := by
  induction h with
  | nil => simp [heapGet]
  | cons p rest ih =>
    obtain ⟨a2, r2⟩ := p
    by_cases he : a2 = a
    · rw [heapGet, if_pos he] at hnone
      cases hnone
    · rw [heapGet, if_neg he] at hnone
      rw [List.cons_append, heapGet, if_neg he]
      exact ih hnone

theorem getKey_mem {α : Type} (fs : List (String × α)) (k : String) (v : α)
    (h : getKey fs k = some v) : (k, v) ∈ fs := by
  induction fs with
  | nil => cases h
  | cons p rest ih =>
    obtain ⟨k2, v2⟩ := p
    by_cases he : k2 = k
    · subst he
      rw [getKey, if_pos rfl] at h
      rw [← Option.some.inj h]
      exact List.mem_cons_self _ _
    · rw [getKey, if_neg he] at h
      exact List.mem_cons_of_mem _ (ih h)

theorem copyRecords_spec : ∀ (entries : TrackCapRef) (h : Heap) (n : Nat),
    (∀ p ∈ h, p.1 < n) → (∀ q ∈ entries, q.2 < n) →
    n ≤ (copyRecords entries h n).2.2 ∧
    (∃ ext, (copyRecords entries h n).2.1 = h ++ ext ∧
      ∀ p ∈ ext, n ≤ p.1 ∧ p.1 < (copyRecords entries h n).2.2) ∧
    (∀ k a, getKey (copyRecords entries h n).1 k = some a →
      n ≤ a ∧ a < (copyRecords entries h n).2.2) ∧
    (∀ k a r0, getKey entries k = some a → heapGet h a = some r0 →
      ∃ a2, getKey (copyRecords entries h n).1 k = some a2 ∧
        heapGet (copyRecords entries h n).2.1 a2 = some r0) := by
  intro entries
  induction entries with
  | nil =>
    intro h n hwf hent
    refine ⟨Nat.le_refl n, ⟨[], by simp [copyRecords], ?_⟩, ?_, ?_⟩
    · intro p hp; cases hp
    · intro k a hk; cases hk
    · intro k a r0 hk; cases hk
  | cons q rest ih =>
    intro h n hwf hent
    obtain ⟨k0, a0⟩ := q
    have hwf2 : ∀ p ∈ h ++ [(n, (heapGet h a0).getD [])], p.1 < n + 1 := by
      intro p hp
      rcases List.mem_append.mp hp with hp | hp
      · exact Nat.lt_succ_of_lt (hwf p hp)
      · have : p = (n, (heapGet h a0).getD []) := List.mem_singleton.mp hp
        rw [this]
        exact Nat.lt_succ_self n
    have hent2 : ∀ q2 ∈ rest, q2.2 < n + 1 :=
      fun q2 hq => Nat.lt_succ_of_lt (hent q2 (by simp [hq]))
    obtain ⟨hle, ⟨ext, hext, hextb⟩, hbounds, hpres⟩ :=
      ih (h ++ [(n, (heapGet h a0).getD [])]) (n + 1) hwf2 hent2
    have hred : copyRecords ((k0, a0) :: rest) h n =
        ((k0, n) :: (copyRecords rest (h ++ [(n, (heapGet h a0).getD [])]) (n + 1)).1,
         (copyRecords rest (h ++ [(n, (heapGet h a0).getD [])]) (n + 1)).2.1,
         (copyRecords rest (h ++ [(n, (heapGet h a0).getD [])]) (n + 1)).2.2) := rfl
    rw [hred]
    dsimp only
    refine ⟨by omega, ?_, ?_, ?_⟩
    · refine ⟨(n, (heapGet h a0).getD []) :: ext, ?_, ?_⟩
      · rw [hext]
        simp
      · intro p hp
        rcases List.mem_cons.mp hp with hp | hp
        · rw [hp]
          exact ⟨Nat.le_refl n, by omega⟩
        · have := hextb p hp
          omega
    · intro k a hk
      by_cases he : k0 = k
      · rw [getKey, if_pos he] at hk
        have : n = a := Option.some.inj hk
        omega
      · rw [getKey, if_neg he] at hk
        have := hbounds k a hk
        omega
    · intro k a r0 hk hr
      by_cases he : k0 = k
      · rw [getKey, if_pos he] at hk
        have ha : a0 = a := Option.some.inj hk
        subst ha
        refine ⟨n, by rw [getKey, if_pos he], ?_⟩
        have h1get : heapGet (h ++ [(n, (heapGet h a0).getD [])]) n = some r0 := by
          rw [hr]
          exact heapGet_append_singleton h n r0
            (heapGet_none_of_forall_ne h n (fun p hp => Nat.ne_of_lt (hwf p hp)))
        rw [hext]
        exact heapGet_append_left _ ext n r0 h1get
      · rw [getKey, if_neg he] at hk
        have ha0 : a < n := hent (k, a) (List.mem_cons_of_mem _ (getKey_mem rest k a hk))
        have hr2 : heapGet (h ++ [(n, (heapGet h a0).getD [])]) a = some r0 := by
          rw [heapGet_append_out h _ a ?_, hr]
          intro p hp
          have : p = (n, (heapGet h a0).getD []) := List.mem_singleton.mp hp
          rw [this]
          omega
        obtain ⟨a2, hga, hha⟩ := hpres k a r0 hk hr2
        exact ⟨a2, by rw [getKey, if_neg he]; exact hga, hha⟩

theorem ensureCapKey_spec (tc : TrackCapRef) (h : Heap) (n : Nat) (k0 : String)
    (hwf : ∀ p ∈ h, p.1 < n) :
    n ≤ (ensureCapKey tc h n k0).2.2 ∧
    (∃ ext, (ensureCapKey tc h n k0).2.1 = h ++ ext ∧
      ∀ p ∈ ext, n ≤ p.1 ∧ p.1 < (ensureCapKey tc h n k0).2.2) ∧
    (∀ k a, getKey (ensureCapKey tc h n k0).1 k = some a →
      getKey tc k = some a ∨ (n ≤ a ∧ a < (ensureCapKey tc h n k0).2.2)) ∧
    (∀ k a, getKey tc k = some a → getKey (ensureCapKey tc h n k0).1 k = some a) ∧
    (∀ p ∈ (ensureCapKey tc h n k0).2.1, p.1 < (ensureCapKey tc h n k0).2.2) := by
  by_cases hk : hasKey tc k0 = true
  · rw [ensureCapKey, if_pos hk]
    exact ⟨Nat.le_refl n, ⟨[], by simp, fun p hp => absurd hp (List.not_mem_nil p)⟩,
      fun k a ha => Or.inl ha, fun k a ha => ha, hwf⟩
  · rw [ensureCapKey, if_neg hk]
    dsimp only
    refine ⟨Nat.le_succ n, ⟨[(n, ZERO_DISC)], rfl, ?_⟩, ?_, ?_, ?_⟩
    · intro p hp
      have : p = (n, ZERO_DISC) := List.mem_singleton.mp hp
      rw [this]
      exact ⟨Nat.le_refl n, Nat.lt_succ_self n⟩
    · intro k a ha
      by_cases he : k = k0
      · subst he
        rw [getKey_setKey_self] at ha
        have : n = a := Option.some.inj ha
        right
        omega
      · rw [getKey_setKey_ne tc k0 k n he] at ha
        exact Or.inl ha
    · intro k a ha
      have hne : k ≠ k0 := by
        intro he
        subst he
        rw [hasKey, ha] at hk
        exact hk rfl
      rw [getKey_setKey_ne tc k0 k n hne]
      exact ha
    · intro p hp
      rcases List.mem_append.mp hp with hp | hp
      · exact Nat.lt_succ_of_lt (hwf p hp)
      · have : p = (n, ZERO_DISC) := List.mem_singleton.mp hp
        rw [this]
        exact Nat.lt_succ_self n


/-- Allocation bookkeeping threaded through the steps of
`migrateTrackCapacity`, relative to the input heap `h`, the initial counter
`n`, and the (optional) input track-capacity object `tce`:  the counter only
grows, the heap is the input heap plus freshly allocated records, every result
address is fresh, the heap stays well formed, and every input entry survives
with its record contents preserved in a fresh copy. -/
structure StepSpec (h : Heap) (n : Nat) (tce : Option TrackCapRef)
    (s : TrackCapRef × Heap × Nat) : Prop where
  hle : n ≤ s.2.2
  hext : ∃ ext, s.2.1 = h ++ ext ∧ ∀ p ∈ ext, n ≤ p.1 ∧ p.1 < s.2.2
  hbound : ∀ k a, getKey s.1 k = some a → n ≤ a ∧ a < s.2.2
  hwf2 : ∀ p ∈ s.2.1, p.1 < s.2.2
  hpres : ∀ tc, tce = some tc → ∀ k a r, getKey tc k = some a → heapGet h a = some r →
    ∃ a2, getKey s.1 k = some a2 ∧ heapGet s.2.1 a2 = some r

theorem StepSpec.ensure {h : Heap} {n : Nat} {tce : Option TrackCapRef}
    {s : TrackCapRef × Heap × Nat} (hs : StepSpec h n tce s) (k0 : String) :
    StepSpec h n tce (ensureCapKey s.1 s.2.1 s.2.2 k0) := by
  obtain ⟨e1, ⟨ext, hext, hextb⟩, e3, e4, e5⟩ := hs
  obtain ⟨f1, ⟨ext2, hext2, hext2b⟩, f3, f4, f5⟩ :=
    ensureCapKey_spec s.1 s.2.1 s.2.2 k0 e4
  constructor
  · exact Nat.le_trans e1 f1
  · refine ⟨ext ++ ext2, ?_, ?_⟩
    · rw [hext2, hext, List.append_assoc]
    · intro p hp
      rcases List.mem_append.mp hp with hp | hp
      · have := hextb p hp
        omega
      · have := hext2b p hp
        omega
  · intro k a ha
    rcases f3 k a ha with hold | hnew
    · have := e3 k a hold
      omega
    · omega
  · exact f5
  · intro tc htce k a r hk hr
    obtain ⟨a2, hga, hha⟩ := e5 tc htce k a r hk hr
    refine ⟨a2, f4 k a2 hga, ?_⟩
    rw [hext2]
    exact heapGet_append_left _ ext2 a2 r hha

theorem migrateTrackCapacity_stepSpec (tc : Option TrackCapRef) (h : Heap) (n : Nat)
    (hwf : ∀ p ∈ h, p.1 < n)
    (hin : ∀ tce, tc = some tce → ∀ q ∈ tce, q.2 < n) :
    StepSpec h n tc (migrateTrackCapacity tc h n) := by
  cases tc with
  | none =>
    have hbase : StepSpec h n none (([], h, n) : TrackCapRef × Heap × Nat) := by
      constructor
      · exact Nat.le_refl n
      · exact ⟨[], by simp, fun p hp => absurd hp (List.not_mem_nil p)⟩
      · intro k a hk; cases hk
      · exact hwf
      · intro tc0 htce; cases htce
    exact ((hbase.ensure "core-bonus").ensure "gateway").ensure "seo-aff"
  | some entries =>
    have hbase : StepSpec h n (some entries) (copyRecords entries h n) := by
      obtain ⟨c1, ⟨ext, hext, hextb⟩, c3, c4⟩ :=
        copyRecords_spec entries h n hwf (fun q hq => hin entries rfl q hq)
      constructor
      · exact c1
      · exact ⟨ext, hext, hextb⟩
      · exact c3
      · intro p hp
        rw [hext] at hp
        rcases List.mem_append.mp hp with hp | hp
        · exact Nat.lt_of_lt_of_le (hwf p hp) c1
        · exact (hextb p hp).2
      · intro tc0 htce k a r hk hr
        rw [← Option.some.inj htce] at hk
        exact c4 k a r hk hr
    exact ((hbase.ensure "core-bonus").ensure "gateway").ensure "seo-aff"

/-- C9: `migrateTrackCapacity` on an empty or absent input yields exactly the
expected track keys, each bound to a fresh all-zero discipline record; on any
input it never mutates the input heap records, never discards keys already
present (their record contents are preserved in fresh copies), and the
defaulted records are fresh copies: mutating a record of one call's result
changes neither the input records nor the corresponding record of a second
call's result. -/
theorem C9_migrate_track_capacity (tc : Option TrackCapRef) (h : Heap) (n : Nat)
    (hwf : ∀ p ∈ h, p.1 < n)
    (hin : ∀ tce, tc = some tce → ∀ q ∈ tce, q.2 < n) :
    (migrateTrackCapacity none h n).1 =
      [("core-bonus", n), ("gateway", n + 1), ("seo-aff", n + 2)] ∧
    migrateTrackCapacity (some []) h n = migrateTrackCapacity none h n ∧
    (∀ k a, getKey (migrateTrackCapacity none h n).1 k = some a →
      heapGet (migrateTrackCapacity none h n).2.1 a = some ZERO_DISC) ∧
    (∀ a r, heapGet h a = some r →
      heapGet (migrateTrackCapacity tc h n).2.1 a = some r) ∧
    (∀ tce, tc = some tce → ∀ k a r, getKey tce k = some a → heapGet h a = some r →
      ∃ a2, getKey (migrateTrackCapacity tc h n).1 k = some a2 ∧
        heapGet (migrateTrackCapacity tc h n).2.1 a2 = some r) ∧
    (∀ k a1 a2 rec,
      getKey (migrateTrackCapacity tc h n).1 k = some a1 →
      getKey (migrateTrackCapacity tc (migrateTrackCapacity tc h n).2.1
          (migrateTrackCapacity tc h n).2.2).1 k = some a2 →
      a1 ≠ a2 ∧
      heapGet (heapSet (migrateTrackCapacity tc (migrateTrackCapacity tc h n).2.1
          (migrateTrackCapacity tc h n).2.2).2.1 a1 rec) a2 =
        heapGet (migrateTrackCapacity tc (migrateTrackCapacity tc h n).2.1
          (migrateTrackCapacity tc h n).2.2).2.1 a2 ∧
      (∀ a0, a0 < n →
        heapGet (heapSet (migrateTrackCapacity tc (migrateTrackCapacity tc h n).2.1
            (migrateTrackCapacity tc h n).2.2).2.1 a1 rec) a0 =
          heapGet (migrateTrackCapacity tc (migrateTrackCapacity tc h n).2.1
            (migrateTrackCapacity tc h n).2.2).2.1 a0)) := by
  have hs1 := migrateTrackCapacity_stepSpec tc h n hwf hin
  refine ⟨rfl, rfl, ?_, ?_, hs1.hpres, ?_⟩
  · intro k a hk
    have hlist : (migrateTrackCapacity none h n).1 =
        [("core-bonus", n), ("gateway", n + 1), ("seo-aff", n + 2)] := rfl
    have hheap : (migrateTrackCapacity none h n).2.1 =
        ((h ++ [(n, ZERO_DISC)]) ++ [(n + 1, ZERO_DISC)]) ++ [(n + 2, ZERO_DISC)] := rfl
    rw [hlist] at hk
    rw [hheap]
    by_cases h1 : ("core-bonus" : String) = k
    · rw [getKey, if_pos h1] at hk
      rw [← Option.some.inj hk]
      rw [heapGet_append_out _ _ n (by intro p hp; rw [List.mem_singleton.mp hp]; omega),
        heapGet_append_out _ _ n (by intro p hp; rw [List.mem_singleton.mp hp]; omega)]
      exact heapGet_append_singleton h n ZERO_DISC
        (heapGet_none_of_forall_ne h n (fun p hp => Nat.ne_of_lt (hwf p hp)))
    · rw [getKey, if_neg h1] at hk
      by_cases h2 : ("gateway" : String) = k
      · rw [getKey, if_pos h2] at hk
        rw [← Option.some.inj hk]
        rw [heapGet_append_out _ _ (n + 1)
          (by intro p hp; rw [List.mem_singleton.mp hp]; omega)]
        refine heapGet_append_singleton _ (n + 1) ZERO_DISC ?_
        refine heapGet_none_of_forall_ne _ (n + 1) ?_
        intro p hp
        rcases List.mem_append.mp hp with hp | hp
        · have := hwf p hp
          omega
        · rw [List.mem_singleton.mp hp]
          omega
      · rw [getKey, if_neg h2] at hk
        by_cases h3 : ("seo-aff" : String) = k
        · rw [getKey, if_pos h3] at hk
          rw [← Option.some.inj hk]
          refine heapGet_append_singleton _ (n + 2) ZERO_DISC ?_
          refine heapGet_none_of_forall_ne _ (n + 2) ?_
          intro p hp
          rcases List.mem_append.mp hp with hp | hp
          · rcases List.mem_append.mp hp with hp | hp
            · have := hwf p hp
              omega
            · rw [List.mem_singleton.mp hp]
              omega
          · rw [List.mem_singleton.mp hp]
            omega
        · rw [getKey, if_neg h3] at hk
          cases hk
  · intro a r hr
    obtain ⟨ext, hext, _⟩ := hs1.hext
    rw [hext]
    exact heapGet_append_left h ext a r hr
  · have hin1 : ∀ tce, tc = some tce →
        ∀ q ∈ tce, q.2 < (migrateTrackCapacity tc h n).2.2 :=
      fun tce htce q hq => Nat.lt_of_lt_of_le (hin tce htce q hq) hs1.hle
    have hs2 := migrateTrackCapacity_stepSpec tc (migrateTrackCapacity tc h n).2.1
      (migrateTrackCapacity tc h n).2.2 hs1.hwf2 hin1
    intro k a1 a2 rec h1 h2
    have hb1 := hs1.hbound k a1 h1
    have hb2 := hs2.hbound k a2 h2
    have hne : a1 ≠ a2 := by omega
    refine ⟨hne, heapGet_heapSet_ne _ a1 a2 rec (fun hh => hne hh.symm), ?_⟩
    intro a0 ha0
    exact heapGet_heapSet_ne _ a1 a0 rec (by omega)

/-- Concrete input heap for the C9 witness: one record at address 0. -/
def exHeap : Heap := [(0, [("backend", 10), ("frontend", 0), ("natives", 0), ("qa", 0)])]

/-- Concrete track-capacity input for the C9 witness. -/
def exTC : TrackCapRef := [("core-bonus", 0)]

theorem C9_witness :
    (migrateTrackCapacity none exHeap 1).1 =
      [("core-bonus", 1), ("gateway", 1 + 1), ("seo-aff", 1 + 2)] ∧
    (∃ a2, getKey (migrateTrackCapacity (some exTC) exHeap 1).1 "core-bonus" = some a2 ∧
      heapGet (migrateTrackCapacity (some exTC) exHeap 1).2.1 a2 =
        some [("backend", 10), ("frontend", 0), ("natives", 0), ("qa", 0)]) ∧
    ((1 : Nat) ≠ 4 ∧
      heapGet (heapSet (migrateTrackCapacity (some exTC)
          (migrateTrackCapacity (some exTC) exHeap 1).2.1
          (migrateTrackCapacity (some exTC) exHeap 1).2.2).2.1 1 [("backend", 99)]) 4 =
        heapGet (migrateTrackCapacity (some exTC)
          (migrateTrackCapacity (some exTC) exHeap 1).2.1
          (migrateTrackCapacity (some exTC) exHeap 1).2.2).2.1 4 ∧
      (∀ a0, a0 < 1 →
        heapGet (heapSet (migrateTrackCapacity (some exTC)
            (migrateTrackCapacity (some exTC) exHeap 1).2.1
            (migrateTrackCapacity (some exTC) exHeap 1).2.2).2.1 1 [("backend", 99)]) a0 =
          heapGet (migrateTrackCapacity (some exTC)
            (migrateTrackCapacity (some exTC) exHeap 1).2.1
            (migrateTrackCapacity (some exTC) exHeap 1).2.2).2.1 a0)) := by
  have h := C9_migrate_track_capacity (some exTC) exHeap 1
    (by decide)
    (fun tce htce => by injection htce with h2; rw [← h2]; decide)
  exact ⟨h.1, h.2.2.2.2.1 exTC rfl "core-bonus" 0
      [("backend", 10), ("frontend", 0), ("natives", 0), ("qa", 0)] (by decide) (by decide),
    h.2.2.2.2.2 "core-bonus" 1 4 [("backend", 99)] (by decide) (by decide)⟩
